import Mathlib

/-!
Verification of the pattern-analysis and humanization pipeline of the
AI Text Humanizer CLI (`src/cli.js`).

Modelling conventions:
* JavaScript strings are modelled as `List Char` (wrapped in `String` at the
  API boundary); JavaScript numbers are modelled as exact rationals `ℚ`,
  except where `Math.sqrt` forces the reals (`sentenceVariety`,
  `overallAIScore`, `paragraphConsistency` use `Real.sqrt`).
* The regular expressions of the source are implemented directly as scanning
  functions with JavaScript `replace`/`match` semantics (leftmost match,
  non-overlapping, continue after the matched text, `\b` evaluated on the
  original string, alternatives tried in order).
* `Math.random()` is modelled by an explicit stream of rationals threaded
  through the humanization stages; the analyzer never touches it.
-/

namespace Humanizer

/-- The character classes of the JavaScript regexes used by the source.
`\s` (restricted to the ASCII whitespace actually relevant here). -/
def isJsWs (c : Char) : Bool :=
  c == ' ' || c == '\t' || c == '\n' || c == '\r' || c == Char.ofNat 11 || c == Char.ofNat 12

/-- Sentence-terminal punctuation `[.!?]`. -/
def isTerm (c : Char) : Bool :=
  c == '.' || c == '!' || c == '?'

/-- The punctuation class `[.,!?;:]` used by `finalPolish`. -/
def isPunct (c : Char) : Bool :=
  c == '.' || c == ',' || c == '!' || c == '?' || c == ';' || c == ':'

/-- JavaScript `\w`, i.e. `[A-Za-z0-9_]`. -/
def isWordChar (c : Char) : Bool :=
  c.isAlphanum || c == '_'

/-- The apostrophe character (used in the contraction dictionaries). -/
def apoC : Char := Char.ofNat 39

/-- Splice an apostrophe between two string fragments. -/
def withApo (a b : String) : List Char := a.data ++ apoC :: b.data

/-- `String.prototype.trim`. -/
def jsTrim (l : List Char) : List Char :=
  ((l.dropWhile isJsWs).reverse.dropWhile isJsWs).reverse

/-- ASCII lowercasing (the portion of `toLowerCase` the source exercises),
written as an explicit table so that facts quantified over all characters
are provable by case analysis. -/
def jsToLower (c : Char) : Char :=
  match c with
  | 'A' => 'a' | 'B' => 'b' | 'C' => 'c' | 'D' => 'd' | 'E' => 'e' | 'F' => 'f'
  | 'G' => 'g' | 'H' => 'h' | 'I' => 'i' | 'J' => 'j' | 'K' => 'k' | 'L' => 'l'
  | 'M' => 'm' | 'N' => 'n' | 'O' => 'o' | 'P' => 'p' | 'Q' => 'q' | 'R' => 'r'
  | 'S' => 's' | 'T' => 't' | 'U' => 'u' | 'V' => 'v' | 'W' => 'w' | 'X' => 'x'
  | 'Y' => 'y' | 'Z' => 'z'
  | c => c

/-- ASCII uppercasing (`toUpperCase` on the characters the source exercises). -/
def jsToUpper (c : Char) : Char :=
  match c with
  | 'a' => 'A' | 'b' => 'B' | 'c' => 'C' | 'd' => 'D' | 'e' => 'E' | 'f' => 'F'
  | 'g' => 'G' | 'h' => 'H' | 'i' => 'I' | 'j' => 'J' | 'k' => 'K' | 'l' => 'L'
  | 'm' => 'M' | 'n' => 'N' | 'o' => 'O' | 'p' => 'P' | 'q' => 'Q' | 'r' => 'R'
  | 's' => 'S' | 't' => 'T' | 'u' => 'U' | 'v' => 'V' | 'w' => 'W' | 'x' => 'X'
  | 'y' => 'Y' | 'z' => 'Z'
  | c => c

/-- Lowercase a character list (`String.prototype.toLowerCase`, ASCII). -/
def toLowerL (l : List Char) : List Char := l.map jsToLower

/-- `str.split(regex)` where the regex is a character class with `+`:
the separators are the maximal runs of characters satisfying `p`; empty
fragments at the edges are kept, exactly as in JavaScript. -/
def splitRuns (p : Char → Bool) : List Char → List (List Char)
  | [] => [[]]
  | c :: cs =>
    if p c then
      if (cs.head?.elim false p) then splitRuns p cs else [] :: splitRuns p cs
    else
      match splitRuns p cs with
      | [] => [[c]]
      | h :: r => (c :: h) :: r

/-- The sentence list: `text.split(/[.!?]+/).filter(s => s.trim().length > 0)`. -/
def sentencesOf (t : List Char) : List (List Char) :=
  (splitRuns isTerm t).filter (fun s => 0 < (jsTrim s).length)

/-- The word list: `text.toLowerCase().split(/\s+/).filter(w => w.length > 0)`. -/
def wordsOf (t : List Char) : List (List Char) :=
  (splitRuns isJsWs (toLowerL t)).filter (fun w => 0 < w.length)

/-- The fixed dictionary of formal terms. -/
def formalWords : List (List Char) :=
  (["utilize", "implement", "facilitate", "leverage", "optimize", "strategic",
    "comprehensive", "methodology", "framework", "paradigm", "subsequently",
    "aforementioned", "nonetheless", "heretofore", "wherein", "whereby",
    "notwithstanding", "henceforth", "ascertain", "endeavor", "procure",
    "paramount", "integral", "quintessential", "multifaceted", "substantiate"
   ] : List String).map String.data

/-- `words.filter(word => formalWords.includes(word)).length`. -/
def formalCountOf (t : List Char) : ℕ :=
  ((wordsOf t).filter (fun w => formalWords.contains w)).length

/-- `Math.min((formalCount / words.length) * 5, 1)`. -/
def formalityScoreOf (t : List Char) : ℚ :=
  min ((formalCountOf t : ℚ) / ((wordsOf t).length : ℚ) * 5) 1

/-- The words of length `> 3` (the keys of `wordFreq`). -/
def longWordsOf (t : List Char) : List (List Char) :=
  (wordsOf t).filter (fun w => 3 < w.length)

/-- `Array.from(wordFreq.values()).reduce((sum, freq) =>
      sum + (freq > 2 ? (freq - 2) * 0.5 : 0), 0) / words.length`. -/
def repetitionScoreOf (t : List Char) : ℚ :=
  (((longWordsOf t).dedup.map (fun w =>
      let freq := (longWordsOf t).count w
      if 2 < freq then ((freq : ℚ) - 2) * 0.5 else 0)).sum) / ((wordsOf t).length : ℚ)

/-- The adjacent two-word phrases `words[i] + " " + words[i+1]`. -/
def phrasesOf (t : List Char) : List (List Char) :=
  ((wordsOf t).zip (wordsOf t).tail).map (fun p => p.1 ++ ' ' :: p.2)

/-- `Array.from(phraseFreq.values()).filter(f => f > 1).length`. -/
def phraseRepetitionOf (t : List Char) : ℕ :=
  ((phrasesOf t).dedup.filter (fun p => 1 < (phrasesOf t).count p)).length

/-- Match a literal word case-insensitively (`w` given in lowercase);
returns the rest of the input on success. -/
def matchCI (w : List Char) (l : List Char) : Option (List Char) :=
  if toLowerL (l.take w.length) = w then some (l.drop w.length) else none

/-- Match `\s+` greedily (the following pattern element never matches
whitespace, so maximal munch is exact). -/
def matchWs1 : List Char → Option (List Char)
  | [] => none
  | c :: cs => if isJsWs c then some ((c :: cs).dropWhile isJsWs) else none

/-- Match `\w+SUF\b` (case-insensitively, `suf` in lowercase): the maximal
`\w` run must be longer than `suf` and end with it. -/
def matchWordEnding (suf : List Char) (l : List Char) : Option (List Char) :=
  let run := l.takeWhile isWordChar
  if suf.length < run.length ∧ toLowerL (run.drop (run.length - suf.length)) = suf then
    some (l.drop run.length)
  else none

/-- Match `\s+M₁\s+M₂…` for literal mid words. -/
def matchMids : List (List Char) → List Char → Option (List Char)
  | [], l => some l
  | m :: ms, l => (matchWs1 l).bind (fun l1 => (matchCI m l1).bind (matchMids ms))

/-- One passive-voice pattern `\b(ALT₁|ALT₂|…)(\s+MID)*\s+\w+SUF\b` (the
leading `\b` is checked by the scan driver). -/
def matchPassive (alts mids : List (List Char)) (suf : List Char) (l : List Char) :
    Option (List Char) :=
  alts.findSome? fun a =>
    (matchCI a l).bind fun r1 =>
      (matchMids mids r1).bind fun r2 =>
        (matchWs1 r2).bind fun r3 => matchWordEnding suf r3

/-- Count the global matches of a pattern that starts with `\b` and whose
matched text always ends in a word character: scan left to right, skip
positions preceded by a word character, and continue after each match.
The `if h :` guard only justifies termination; every pattern used consumes
at least one character, so the fallback branch is never taken. -/
def countScanF (pat : List Char → Option (List Char)) : ℕ → List Char → Bool → ℕ
  | 0, _, _ => 0
  | _ + 1, [], _ => 0
  | fuel + 1, c :: cs, prevW =>
    if prevW then countScanF pat fuel cs (isWordChar c)
    else
      match pat (c :: cs) with
      | some rest =>
        if rest.length ≤ cs.length then 1 + countScanF pat fuel rest true
        else 1 + countScanF pat fuel cs (isWordChar c)
      | none => countScanF pat fuel cs (isWordChar c)

/-- Run the scan with fuel equal to the input length: every step consumes at
least one character (the `rest.length` guard enforces it for matches), so the
fuel never runs out before the input does. -/
def countScan (pat : List Char → Option (List Char)) (l : List Char) (prevW : Bool) : ℕ :=
  countScanF pat l.length l prevW

/-- The passive-voice alternation `(is|are|was|were|been|being)`. -/
def passiveAux : List (List Char) :=
  (["is", "are", "was", "were", "been", "being"] : List String).map String.data

/-- Total count over the six passive-voice regexes. -/
def passiveCountOf (t : List Char) : ℕ :=
  countScan (matchPassive passiveAux [] "ed".data) t false +
  countScan (matchPassive passiveAux [] "en".data) t false +
  countScan (matchPassive ["can".data] ["be".data] "ed".data) t false +
  countScan (matchPassive ["will".data] ["be".data] "ed".data) t false +
  countScan (matchPassive ["has".data] ["been".data] "ed".data) t false +
  countScan (matchPassive ["have".data] ["been".data] "ed".data) t false

/-- `Math.min(passiveCount / Math.max(sentences.length, 1), 1)`. -/
def passiveScoreOf (t : List Char) : ℚ :=
  min ((passiveCountOf t : ℚ) / (max ((sentencesOf t).length : ℚ) 1)) 1

/-- `sentences.map(s => s.trim().split(/\s+/).length)`. -/
def sentenceLengthsOf (t : List Char) : List ℕ :=
  (sentencesOf t).map (fun s => (splitRuns isJsWs (jsTrim s)).length)

/-- The mean sentence length. -/
def avgLengthOf (t : List Char) : ℚ :=
  ((sentenceLengthsOf t).map (fun n => (n : ℚ))).sum / ((sentenceLengthsOf t).length : ℚ)

/-- The population variance of the sentence lengths. -/
def varianceOf (t : List Char) : ℚ :=
  ((sentenceLengthsOf t).map (fun n => ((n : ℚ) - avgLengthOf t) ^ 2)).sum /
    ((sentenceLengthsOf t).length : ℚ)

/-- `Math.min(stdDev / Math.max(avgLength, 1), 1)` with `stdDev = Math.sqrt(variance)`. -/
noncomputable def sentenceVarietyOf (t : List Char) : ℝ :=
  min (Real.sqrt (varianceOf t) / max ((avgLengthOf t : ℚ) : ℝ) 1) 1

/-- `sentences.map(s => s.trim().split(/\s+/)[0]?.toLowerCase()).filter(Boolean)`. -/
def startersOf (t : List Char) : List (List Char) :=
  ((sentencesOf t).filterMap (fun s =>
    ((splitRuns isJsWs (jsTrim s)).head?).map toLowerL)).filter (fun w => 0 < w.length)

/-- `Array.from(starterFreq.values()).filter(f => f > 2).length`. -/
def starterRepetitionOf (t : List Char) : ℕ :=
  ((startersOf t).dedup.filter (fun w => 2 < (startersOf t).count w)).length

/-- `Math.min(starterRepetition / Math.max(sentences.length, 1), 1)`. -/
def starterScoreOf (t : List Char) : ℚ :=
  min ((starterRepetitionOf t : ℚ) / (max ((sentencesOf t).length : ℚ) 1)) 1

/-- The 23 contraction alternatives (in source order, lowercased for the
case-insensitive match). -/
def contractionList : List (List Char) :=
  [withApo "can" "t", withApo "won" "t", withApo "don" "t", withApo "isn" "t",
   withApo "aren" "t", withApo "wasn" "t", withApo "weren" "t", withApo "haven" "t",
   withApo "hasn" "t", withApo "hadn" "t", withApo "you" "re", withApo "we" "re",
   withApo "they" "re", withApo "it" "s", withApo "that" "s", withApo "i" "m",
   withApo "i" "ve", withApo "i" "ll", withApo "there" "s", withApo "who" "s",
   withApo "what" "s", withApo "where" "s", withApo "how" "s"]

/-- One step of the contraction regex `\b(can't|…|how's)\b` (the leading `\b`
is checked by the scan driver): first alternative that matches and is
followed by a non-word character wins. -/
def matchContraction (l : List Char) : Option (List Char) :=
  contractionList.findSome? fun w =>
    (matchCI w l).bind fun rest =>
      if rest.head?.elim true (fun c => ¬ isWordChar c) then some rest else none

/-- `(text.match(contractionPattern) || []).length`. -/
def contractionCountOf (t : List Char) : ℕ :=
  countScan matchContraction t false

/-- `contractionCount / Math.max(sentences.length, 1)` (not clamped). -/
def contractionScoreOf (t : List Char) : ℚ :=
  (contractionCountOf t : ℚ) / (max ((sentencesOf t).length : ℚ) 1)

/-- `contractionScore < 0.1 ? 0.8 : 0`. -/
def lackOfContractionsOf (t : List Char) : ℚ :=
  if contractionScoreOf t < 0.1 then 0.8 else 0

/-- Substring test (`String.prototype.includes`). -/
def containsSub (p : List Char) : List Char → Bool
  | [] => p.isEmpty
  | c :: cs => p.isPrefixOf (c :: cs) || containsSub p cs

/-- The fixed robotic transition phrases. -/
def roboticTransitions : List (List Char) :=
  (["furthermore", "moreover", "in conclusion", "additionally", "consequently",
    "subsequently", "therefore", "thus", "hence", "accordingly", "nevertheless",
    "notwithstanding", "it is important to note", "it should be noted",
    "it is worth mentioning", "in this regard", "in light of", "with respect to",
    "in terms of", "with regard to", "as previously mentioned"] : List String).map String.data

/-- `roboticTransitions.filter(t => text.toLowerCase().includes(t)).length`. -/
def transitionCountOf (t : List Char) : ℕ :=
  (roboticTransitions.filter (fun p => containsSub p (toLowerL t))).length

/-- `Math.min(transitionCount / 3, 1)`. -/
def transitionScoreOf (t : List Char) : ℚ :=
  min ((transitionCountOf t : ℚ) / 3) 1

/-- The two perfect-structure indicators (each requires more than 3 sentences). -/
def perfectStructureOf (t : List Char) : ℚ :=
  ((if 3 < (sentencesOf t).length ∧
       (sentencesOf t).all (fun s => 15 < (splitRuns isJsWs (jsTrim s)).length)
    then (1 : ℚ) else 0) +
   (if 3 < (sentencesOf t).length ∧
       (sentencesOf t).all (fun s => containsSub [','] s)
    then (1 : ℚ) else 0)) / 2

/-- `new Set(words).size / words.length`. -/
def vocabDiversityOf (t : List Char) : ℚ :=
  ((wordsOf t).dedup.length : ℚ) / ((wordsOf t).length : ℚ)

/-- `vocabDiversity < 0.5 ? 0.6 : 0`. -/
def lowDiversityScoreOf (t : List Char) : ℚ :=
  if vocabDiversityOf t < 0.5 then 0.6 else 0

/-- `text.split('\n\n')`: split on the literal two-newline separator,
leftmost and non-overlapping. -/
def splitNN : List Char → List (List Char)
  | [] => [[]]
  | [c] => [[c]]
  | c :: c2 :: rest =>
    if c = '\n' ∧ c2 = '\n' then
      [] :: splitNN rest
    else
      match splitNN (c2 :: rest) with
      | [] => [[c]]
      | h :: r => (c :: h) :: r

/-- `text.split('\n\n').filter(p => p.trim().length > 0)`. -/
def paragraphsOf (t : List Char) : List (List Char) :=
  (splitNN t).filter (fun p => 0 < (jsTrim p).length)

/-- The coefficient-of-variation flag over paragraph character lengths. -/
noncomputable def paragraphConsistencyOf (t : List Char) : ℝ :=
  if 1 < (paragraphsOf t).length then
    let paraLengths := (paragraphsOf t).map (fun p => (p.length : ℚ))
    let paraAvg := paraLengths.sum / (paraLengths.length : ℚ)
    let paraVariance := (paraLengths.map (fun len => (len - paraAvg) ^ 2)).sum /
      (paraLengths.length : ℚ)
    if Real.sqrt paraVariance / (paraAvg : ℝ) < 0.2 then 0.5 else 0
  else 0

/-- Render `n/10` with one decimal digit (the value part of `toFixed(1)`). -/
def fixedRender1 (n : ℤ) : String :=
  toString (n / 10) ++ "." ++ toString (n % 10)

/-- Render `n/100` with two decimal digits (the value part of `toFixed(2)`). -/
def fixedRender2 (n : ℤ) : String :=
  toString (n / 100) ++ "." ++ toString (n % 100 / 10) ++ toString (n % 10)

/-- `x.toFixed(1)` for a rational: round to one decimal place and render.
(The digit rendering approximates the IEEE-float formatting of JavaScript;
no theorem below depends on the rendered digits.) -/
def qFix1 (x : ℚ) : String := fixedRender1 ⌊x * 10 + 0.5⌋

/-- `x.toFixed(2)` for a rational. -/
def qFix2 (x : ℚ) : String := fixedRender2 ⌊x * 100 + 0.5⌋

/-- `x.toFixed(1)` for a real. -/
noncomputable def rFix1 (x : ℝ) : String := fixedRender1 ⌊x * 10 + 0.5⌋

/-- A single conditionally-pushed pattern flag. -/
def optFlag (c : Prop) [Decidable c] (s : String) : List String :=
  if c then [s] else []

open Classical in
/-- The `aiPatterns` list built by the eleven threshold checks, in source
order. -/
noncomputable def aiPatternsOf (t : List Char) : List String :=
  optFlag (formalityScoreOf t > 0.15)
    ("High formality level detected (" ++ qFix1 (formalityScoreOf t * 100) ++ "%)") ++
  optFlag (repetitionScoreOf t > 0.08)
    ("Word repetition detected (" ++ qFix1 (repetitionScoreOf t * 100) ++ "%)") ++
  optFlag (phraseRepetitionOf t > 3)
    ("Phrase repetition detected (" ++ toString (phraseRepetitionOf t) ++ " repeated phrases)") ++
  optFlag (passiveScoreOf t > 0.25)
    ("Excessive passive voice (" ++ toString (passiveCountOf t) ++ " instances)") ++
  optFlag (sentenceVarietyOf t < 0.35)
    ("Uniform sentence lengths (variety: " ++ rFix1 (sentenceVarietyOf t * 100) ++ "%)") ++
  optFlag (starterScoreOf t > 0.3)
    "Repetitive sentence starters detected" ++
  optFlag (lackOfContractionsOf t > 0.5)
    ("Lack of contractions (" ++ toString (contractionCountOf t) ++ " found)") ++
  optFlag (transitionCountOf t > 0)
    ("Robotic transitions detected (" ++ toString (transitionCountOf t) ++ " found)") ++
  optFlag (perfectStructureOf t > 0.3)
    "Unnaturally perfect sentence structure" ++
  optFlag (lowDiversityScoreOf t > 0.3)
    ("Limited vocabulary diversity (" ++ qFix1 (vocabDiversityOf t * 100) ++ "%)") ++
  optFlag (paragraphConsistencyOf t > 0.3)
    "Suspiciously consistent paragraph lengths"

/-- The weighted composite score, clamped above by 1. -/
noncomputable def overallAIScoreOf (t : List Char) : ℝ :=
  min (((formalityScoreOf t : ℚ) : ℝ) * 0.20 +
       ((repetitionScoreOf t : ℚ) : ℝ) * 0.15 +
       ((passiveScoreOf t : ℚ) : ℝ) * 0.15 +
       (1 - sentenceVarietyOf t) * 0.15 +
       ((starterScoreOf t : ℚ) : ℝ) * 0.10 +
       ((lackOfContractionsOf t : ℚ) : ℝ) * 0.10 +
       ((transitionScoreOf t : ℚ) : ℝ) * 0.10 +
       ((lowDiversityScoreOf t : ℚ) : ℝ) * 0.05)
      1

/-- The `detailedMetrics` sub-record. In the source the two average fields
hold the number `0` on the degenerate path and a `toFixed` string otherwise;
the sum type mirrors that heterogeneity. -/
structure DetailedMetrics where
  totalWords : ℕ
  totalSentences : ℕ
  avgSentenceLength : ℚ ⊕ String
  uniqueWordShare : ℚ ⊕ String
  contractionCount : ℕ
  passiveVoiceInstances : ℕ
deriving Repr, DecidableEq

/-- The record returned by `analyzeAIPatterns`. -/
structure PatternAnalysis where
  aiPatterns : List String
  formalityScore : ℚ
  repetitionScore : ℚ
  passiveCount : ℕ
  passiveScore : ℚ
  sentenceVariety : ℝ
  starterScore : ℚ
  contractionScore : ℚ
  transitionScore : ℚ
  vocabDiversity : ℚ
  overallAIScore : ℝ
  detailedMetrics : DetailedMetrics

/-- `analyzeAIPatterns(text)`: the degenerate early return when there are no
words or no sentences, otherwise the full metrics record. -/
noncomputable def analyzeAIPatterns (text : String) : PatternAnalysis :=
  let t := text.data
  if (wordsOf t).length = 0 ∨ (sentencesOf t).length = 0 then
    { aiPatterns := ["Insufficient text for analysis"]
      formalityScore := 0
      repetitionScore := 0
      passiveCount := 0
      passiveScore := 0
      sentenceVariety := 0
      starterScore := 0
      contractionScore := 0
      transitionScore := 0
      vocabDiversity := 0
      overallAIScore := 0
      detailedMetrics :=
        { totalWords := (wordsOf t).length
          totalSentences := (sentencesOf t).length
          avgSentenceLength := Sum.inl 0
          uniqueWordShare := Sum.inl 0
          contractionCount := 0
          passiveVoiceInstances := 0 } }
  else
    { aiPatterns := aiPatternsOf t
      formalityScore := formalityScoreOf t
      repetitionScore := repetitionScoreOf t
      passiveCount := passiveCountOf t
      passiveScore := passiveScoreOf t
      sentenceVariety := sentenceVarietyOf t
      starterScore := starterScoreOf t
      contractionScore := contractionScoreOf t
      transitionScore := transitionScoreOf t
      vocabDiversity := vocabDiversityOf t
      overallAIScore := overallAIScoreOf t
      detailedMetrics :=
        { totalWords := (wordsOf t).length
          totalSentences := (sentencesOf t).length
          avgSentenceLength := Sum.inr (qFix1 (avgLengthOf t))
          uniqueWordShare := Sum.inr (qFix2 (vocabDiversityOf t))
          contractionCount := contractionCountOf t
          passiveVoiceInstances := passiveCountOf t } }

/-- The process-wide random source: a pre-drawn stream of values of
`Math.random()`.  An exhausted stream yields `1` (so probabilistic gates
`Math.random() < p` with `p ≤ 1` all fail). -/
structure Rng where
  vals : List ℚ
deriving Repr, DecidableEq

/-- The analyzer as seen by a caller threading the ambient random source:
it reads the text only and leaves the random state untouched (the source
function performs no `Math.random()` call). -/
noncomputable def analyzeAIPatternsR (text : String) (g : Rng) : PatternAnalysis × Rng :=
  (analyzeAIPatterns text, g)

/-! ### The humanization pipeline -/

/-- `w.charAt(0).toUpperCase() + w.slice(1)`. -/
def jsCapFirst : List Char → List Char
  | [] => []
  | c :: cs => jsToUpper c :: cs

/-- Global replace of `\bNEEDLE\b` (case-insensitive when `ci`), with the
replacement computed from the matched text.  The scan walks the original
string tracking whether the previous character is a word character (for the
leading `\b`); after a match it continues past the matched text, whose last
character is a word character for every needle used by the source.  The fuel
(set to the input length by `replaceWordAll`) only bounds the recursion:
every step consumes at least one input character. -/
def replaceWordScan (ci : Bool) (needle : List Char) (mkR : List Char → List Char) :
    ℕ → List Char → Bool → List Char
  | 0, l, _ => l
  | _ + 1, [], _ => []
  | fuel + 1, c :: cs, prevW =>
    let m := (c :: cs).take needle.length
    if prevW = false ∧ (if ci then toLowerL m = needle else m = needle) ∧
        (((c :: cs).drop needle.length).head?.elim true (fun d => isWordChar d = false)) then
      mkR m ++ replaceWordScan ci needle mkR fuel ((c :: cs).drop needle.length) true
    else
      c :: replaceWordScan ci needle mkR fuel cs (isWordChar c)

/-- `replace(/\s+/g, ' ')`: collapse every maximal whitespace run to one
space (the space is emitted at the last character of the run). -/
def collapseWs : List Char → List Char
  | [] => []
  | c :: cs =>
    if isJsWs c then
      (if cs.head?.elim false isJsWs then collapseWs cs else ' ' :: collapseWs cs)
    else c :: collapseWs cs

/-- `replace(/\s+(X)/g, '$1')` for a punctuation class `target`: delete each
whitespace character whose whitespace run is immediately followed by a
`target` character. -/
def stripWsBefore (target : Char → Bool) : List Char → List Char
  | [] => []
  | c :: cs =>
    if isJsWs c ∧ (cs.dropWhile isJsWs).head?.elim false target then
      stripWsBefore target cs
    else c :: stripWsBefore target cs

/-- `replace(/([.,!?;:])\s*/g, '$1 ')`: after each punctuation character emit
one space and absorb the following whitespace run (`afterP` records being
inside that run). -/
def punctSpace : List Char → Bool → List Char
  | [], _ => []
  | c :: cs, afterP =>
    if isPunct c then c :: ' ' :: punctSpace cs true
    else if afterP ∧ isJsWs c then punctSpace cs true
    else c :: punctSpace cs false

/-- `replace(/X+/g, 'X')`: collapse runs of one character (emitting at the
last of the run). -/
def collapseRuns (tc : Char) : List Char → List Char
  | [] => []
  | c :: cs =>
    if c = tc ∧ cs.head? = some tc then collapseRuns tc cs
    else c :: collapseRuns tc cs

/-- `replace(/([.!?]\s+)(\w)/g, punct-preserving uppercase)`: a state machine
(`0` idle, `1` just after a terminator, `2` after terminator-plus-whitespace)
uppercasing a word character reached through a terminator and whitespace. -/
def upperAfter : List Char → ℕ → List Char
  | [], _ => []
  | c :: cs, st =>
    if isTerm c then c :: upperAfter cs 1
    else if isJsWs c then c :: upperAfter cs (if st = 1 ∨ st = 2 then 2 else 0)
    else if isWordChar c then
      (if st = 2 then jsToUpper c else c) :: upperAfter cs 0
    else c :: upperAfter cs 0

/-- `replace(/\s+-\s+/g, ' - ')`: at a whitespace run followed by `'-'` and
more whitespace, rewrite the whole group to `' - '`; the fuel (the input
length) only bounds the recursion. -/
def dashSpaceF : ℕ → List Char → List Char
  | 0, l => l
  | _ + 1, [] => []
  | fuel + 1, c :: cs =>
    if isJsWs c then
      if (cs.dropWhile isJsWs).head? = some '-' ∧
          ((cs.dropWhile isJsWs).tail.head?.elim false isJsWs) = true then
        ' ' :: '-' :: ' ' :: dashSpaceF fuel ((cs.dropWhile isJsWs).tail.dropWhile isJsWs)
      else c :: dashSpaceF fuel cs
    else c :: dashSpaceF fuel cs

/-- `replace(/\s+-\s+/g, ' - ')`. -/
def dashSpace (l : List Char) : List Char := dashSpaceF l.length l

/-- `finalPolish` on character lists: the eleven rewrites of the source, in
order, followed by `trim`. -/
def finalPolishL (t : List Char) : List Char :=
  jsTrim
    (stripWsBefore (fun c => c == '.')
      (stripWsBefore (fun c => c == ',')
        (dashSpace
          (jsCapFirst
            (upperAfter
              (collapseRuns '!'
                (collapseRuns '?'
                  (collapseRuns '.'
                    (punctSpace
                      (stripWsBefore isPunct
                        (collapseWs t))
                      false))))
              0)))))

/-- `finalPolish(text)`. -/
def finalPolish (s : String) : String := String.mk (finalPolishL s.data)

/-! #### `applyHumanization` -/

/-- No two adjacent whitespace characters. -/
def noWsPair (a b : Char) : Prop := ¬ (isJsWs a = true ∧ isJsWs b = true)

/-- Every whitespace character is a plain space. -/
def memWs (l : List Char) : Prop := ∀ c ∈ l, isJsWs c = true → c = ' '

/-- Whitespace runs are single characters. -/
def chainWs (l : List Char) : Prop := List.Chain' noWsPair l

/-- The clean-output property of C10: no whitespace other than single
spaces, and none at either end. -/
def cleanOutput (l : List Char) : Prop :=
  memWs l ∧ chainWs l ∧
  (∀ c, l.head? = some c → isJsWs c = false) ∧
  (∀ c, l.getLast? = some c → isJsWs c = false)

lemma toLower_of_ws {c : Char} (h : isJsWs c = true) : jsToLower c = c := by
  unfold jsToLower
  split
  all_goals first
    | rfl
    | exact absurd h (by decide)

lemma splitRuns_filter_nil {p : Char → Bool} {l : List Char}
    (h : ∀ c ∈ l, p c = true) :
    (splitRuns p l).filter (fun w => 0 < w.length) = [] := by
  induction l with
  | nil => rfl
  | cons c cs ih =>
    have pc : p c = true := h c (List.mem_cons_self c cs)
    have ih' := ih (fun x hx => h x (List.mem_cons_of_mem c hx))
    simp only [splitRuns, pc, if_true]
    by_cases hh : cs.head?.elim false p = true
    · simp [hh, ih']
    · simp only [hh, if_false, List.filter_cons]
      simpa using ih'

lemma jsTrim_nil_all_ws {l : List Char} (h : jsTrim l = []) :
    ∀ c ∈ l, isJsWs c = true := by
  have h1 : (l.dropWhile isJsWs).reverse.dropWhile isJsWs = [] := by
    have := congrArg List.reverse h
    simpa [jsTrim] using this
  have h2 : ∀ c ∈ (l.dropWhile isJsWs).reverse, isJsWs c = true :=
    List.dropWhile_eq_nil_iff.mp h1
  have h3 : ∀ c ∈ l.dropWhile isJsWs, isJsWs c = true := by
    intro c hc
    exact h2 c (List.mem_reverse.mpr hc)
  intro c hc
  rw [← List.takeWhile_append_dropWhile (p := isJsWs) (l := l)] at hc
  rcases List.mem_append.mp hc with hc | hc
  · exact List.mem_takeWhile_imp hc
  · exact h3 c hc

lemma wordsOf_nil_of_all_ws {l : List Char} (h : ∀ c ∈ l, isJsWs c = true) :
    wordsOf l = [] := by
  apply splitRuns_filter_nil
  intro c hc
  rcases List.mem_map.mp hc with ⟨x, hx, rfl⟩
  rw [toLower_of_ws (h x hx)]
  exact h x hx

/-! ### Claim theorems: analyzer -/

/-- **C7.** `analyzeAIPatterns` is a pure deterministic function of its input
string: threaded through the ambient random source it reads none of it, so
two evaluations (under arbitrary random states) yield identical records in
every field, and the random state is left untouched. -/
theorem analyze_pure (text : String) (g₁ g₂ : Rng) :
    (analyzeAIPatternsR text g₁).1 = (analyzeAIPatternsR text g₂).1 ∧
    (analyzeAIPatternsR text g₁).2 = g₁ :=
  ⟨rfl, rfl⟩

/-- **C3.** For empty, whitespace-only, or otherwise degenerate input (zero
words or zero sentences after filtering), `analyzeAIPatterns` returns the
record with every score field `0` and the single pattern
`"Insufficient text for analysis"`. -/
theorem analyze_degenerate (s : String)
    (h : s = "" ∨ jsTrim s.data = [] ∨
         (wordsOf s.data).length = 0 ∨ (sentencesOf s.data).length = 0) :
    (analyzeAIPatterns s).formalityScore = 0 ∧
    (analyzeAIPatterns s).repetitionScore = 0 ∧
    (analyzeAIPatterns s).passiveScore = 0 ∧
    (analyzeAIPatterns s).sentenceVariety = 0 ∧
    (analyzeAIPatterns s).starterScore = 0 ∧
    (analyzeAIPatterns s).contractionScore = 0 ∧
    (analyzeAIPatterns s).transitionScore = 0 ∧
    (analyzeAIPatterns s).vocabDiversity = 0 ∧
    (analyzeAIPatterns s).overallAIScore = 0 ∧
    (analyzeAIPatterns s).aiPatterns = ["Insufficient text for analysis"] := by
  have hg : (wordsOf s.data).length = 0 ∨ (sentencesOf s.data).length = 0 := by
    rcases h with h | h | h | h
    · subst h; exact Or.inl rfl
    · exact Or.inl (by rw [wordsOf_nil_of_all_ws (jsTrim_nil_all_ws h)]; rfl)
    · exact Or.inl h
    · exact Or.inr h
  unfold analyzeAIPatterns
  rw [if_pos hg]
  exact ⟨rfl, rfl, rfl, rfl, rfl, rfl, rfl, rfl, rfl, rfl⟩

/-- Witness for C3 at the concrete input `""`. -/
theorem analyze_degenerate_witness :
    (analyzeAIPatterns "").formalityScore = 0 ∧
    (analyzeAIPatterns "").repetitionScore = 0 ∧
    (analyzeAIPatterns "").passiveScore = 0 ∧
    (analyzeAIPatterns "").sentenceVariety = 0 ∧
    (analyzeAIPatterns "").starterScore = 0 ∧
    (analyzeAIPatterns "").contractionScore = 0 ∧
    (analyzeAIPatterns "").transitionScore = 0 ∧
    (analyzeAIPatterns "").vocabDiversity = 0 ∧
    (analyzeAIPatterns "").overallAIScore = 0 ∧
    (analyzeAIPatterns "").aiPatterns = ["Insufficient text for analysis"] :=
  analyze_degenerate "" (Or.inl rfl)

/-- **C9.** On the input `"."` (one whitespace token, zero sentences) the
degenerate record still reports the actual token count: `totalWords` is
positive while every score is `0` and the pattern list is the degenerate
singleton. -/
theorem analyze_degenerate_reports_counts :
    (analyzeAIPatterns ".").detailedMetrics.totalWords = 1 ∧
    0 < (analyzeAIPatterns ".").detailedMetrics.totalWords ∧
    (analyzeAIPatterns ".").detailedMetrics.totalSentences = 0 ∧
    (analyzeAIPatterns ".").formalityScore = 0 ∧
    (analyzeAIPatterns ".").repetitionScore = 0 ∧
    (analyzeAIPatterns ".").passiveScore = 0 ∧
    (analyzeAIPatterns ".").sentenceVariety = 0 ∧
    (analyzeAIPatterns ".").starterScore = 0 ∧
    (analyzeAIPatterns ".").contractionScore = 0 ∧
    (analyzeAIPatterns ".").transitionScore = 0 ∧
    (analyzeAIPatterns ".").vocabDiversity = 0 ∧
    (analyzeAIPatterns ".").overallAIScore = 0 ∧
    (analyzeAIPatterns ".").aiPatterns = ["Insufficient text for analysis"] := by
  have hg : (wordsOf (String.data ".")).length = 0 ∨
      (sentencesOf (String.data ".")).length = 0 := Or.inr (by decide)
  unfold analyzeAIPatterns
  rw [if_pos hg]
  refine ⟨by decide, by decide, by decide, rfl, rfl, rfl, rfl, rfl, rfl, rfl, rfl, rfl, rfl⟩

/-- **C1.** For every non-degenerate input the returned `overallAIScore` is
exactly the weighted combination of the returned component scores, clamped
above by `1`, with the lack-of-contractions term `0.8` when
`contractionScore < 0.1` (else `0`) and the low-diversity term `0.6` when
`vocabDiversity < 0.5` (else `0`). -/
theorem overallAIScore_formula (s : String)
    (h : ¬ ((wordsOf s.data).length = 0 ∨ (sentencesOf s.data).length = 0)) :
    (analyzeAIPatterns s).overallAIScore =
      min (0.20 * ((analyzeAIPatterns s).formalityScore : ℝ) +
           0.15 * ((analyzeAIPatterns s).repetitionScore : ℝ) +
           0.15 * ((analyzeAIPatterns s).passiveScore : ℝ) +
           0.15 * (1 - (analyzeAIPatterns s).sentenceVariety) +
           0.10 * ((analyzeAIPatterns s).starterScore : ℝ) +
           0.10 * (if (analyzeAIPatterns s).contractionScore < 0.1 then (0.8 : ℝ) else 0) +
           0.10 * ((analyzeAIPatterns s).transitionScore : ℝ) +
           0.05 * (if (analyzeAIPatterns s).vocabDiversity < 0.5 then (0.6 : ℝ) else 0))
          1 := by
  unfold analyzeAIPatterns
  rw [if_neg h]
  show overallAIScoreOf s.data = _
  unfold overallAIScoreOf lackOfContractionsOf lowDiversityScoreOf
  congr 1
  split_ifs <;> push_cast <;> ring

/-- Witness for C1 at the concrete input `"Hello world."`. -/
theorem overallAIScore_formula_witness :
    ¬ ((wordsOf (String.data "Hello world.")).length = 0 ∨
       (sentencesOf (String.data "Hello world.")).length = 0) ∧
    (analyzeAIPatterns "Hello world.").overallAIScore =
      min (0.20 * ((analyzeAIPatterns "Hello world.").formalityScore : ℝ) +
           0.15 * ((analyzeAIPatterns "Hello world.").repetitionScore : ℝ) +
           0.15 * ((analyzeAIPatterns "Hello world.").passiveScore : ℝ) +
           0.15 * (1 - (analyzeAIPatterns "Hello world.").sentenceVariety) +
           0.10 * ((analyzeAIPatterns "Hello world.").starterScore : ℝ) +
           0.10 * (if (analyzeAIPatterns "Hello world.").contractionScore < 0.1
                   then (0.8 : ℝ) else 0) +
           0.10 * ((analyzeAIPatterns "Hello world.").transitionScore : ℝ) +
           0.05 * (if (analyzeAIPatterns "Hello world.").vocabDiversity < 0.5
                   then (0.6 : ℝ) else 0))
          1 :=
  ⟨by decide, overallAIScore_formula "Hello world." (by decide)⟩

/-! ### Score bounds (C2) -/

lemma formalityScoreOf_nonneg (t : List Char) : 0 ≤ formalityScoreOf t :=
  le_min (by positivity) zero_le_one

lemma formalityScoreOf_le_one (t : List Char) : formalityScoreOf t ≤ 1 :=
  min_le_right _ _

lemma repetitionScoreOf_nonneg (t : List Char) : 0 ≤ repetitionScoreOf t := by
  apply div_nonneg _ (Nat.cast_nonneg _)
  apply List.sum_nonneg
  intro x hx
  rcases List.mem_map.mp hx with ⟨w, _, rfl⟩
  dsimp only
  split_ifs with h
  · have h' : (2 : ℚ) < ((longWordsOf t).count w : ℚ) := by exact_mod_cast h
    nlinarith
  · exact le_refl 0

lemma count_beq_congr (w : List Char) (L : List (List Char)) :
    @List.count (List Char) instBEqOfDecidableEq w L =
      @List.count (List Char) List.instBEq w L := by
  induction L with
  | nil => rfl
  | cons a L ih =>
    rw [@List.count_cons (List Char) instBEqOfDecidableEq,
        @List.count_cons (List Char) List.instBEq, ih]
    by_cases h : a = w <;> simp [h]

lemma repetitionScoreOf_le_one (t : List Char) : repetitionScoreOf t ≤ 1 := by
  unfold repetitionScoreOf
  apply div_le_one_of_le₀ _ (Nat.cast_nonneg _)
  calc ((longWordsOf t).dedup.map (fun w =>
          let freq := (longWordsOf t).count w
          if 2 < freq then ((freq : ℚ) - 2) * 0.5 else 0)).sum
      ≤ ((longWordsOf t).dedup.map (fun w => ((longWordsOf t).count w : ℚ))).sum := by
        apply List.sum_le_sum
        intro w _
        dsimp only
        split_ifs with h
        · have h' : (2 : ℚ) < ((longWordsOf t).count w : ℚ) := by exact_mod_cast h
          nlinarith
        · positivity
    _ = (((longWordsOf t).dedup.map (fun w => (longWordsOf t).count w)).sum : ℚ) := by
        rw [Nat.cast_list_sum, List.map_map]
        rfl
    _ = ((longWordsOf t).length : ℚ) := by
        have h := List.sum_map_count_dedup_eq_length (longWordsOf t)
        simp only [count_beq_congr] at h
        exact_mod_cast congrArg (fun n : ℕ => (n : ℚ)) h
    _ ≤ ((wordsOf t).length : ℚ) := by
        exact_mod_cast List.length_filter_le _ _

lemma passiveScoreOf_nonneg (t : List Char) : 0 ≤ passiveScoreOf t :=
  le_min (div_nonneg (Nat.cast_nonneg _) (le_max_of_le_right zero_le_one)) zero_le_one

lemma passiveScoreOf_le_one (t : List Char) : passiveScoreOf t ≤ 1 :=
  min_le_right _ _

lemma sentenceVarietyOf_nonneg (t : List Char) : 0 ≤ sentenceVarietyOf t :=
  le_min (div_nonneg (Real.sqrt_nonneg _) (le_max_of_le_right zero_le_one)) zero_le_one

lemma sentenceVarietyOf_le_one (t : List Char) : sentenceVarietyOf t ≤ 1 :=
  min_le_right _ _

lemma starterScoreOf_nonneg (t : List Char) : 0 ≤ starterScoreOf t :=
  le_min (div_nonneg (Nat.cast_nonneg _) (le_max_of_le_right zero_le_one)) zero_le_one

lemma starterScoreOf_le_one (t : List Char) : starterScoreOf t ≤ 1 :=
  min_le_right _ _

lemma contractionScoreOf_nonneg (t : List Char) : 0 ≤ contractionScoreOf t :=
  div_nonneg (Nat.cast_nonneg _) (le_max_of_le_right zero_le_one)

lemma lackOfContractionsOf_nonneg (t : List Char) : 0 ≤ lackOfContractionsOf t := by
  unfold lackOfContractionsOf
  split_ifs <;> norm_num

lemma transitionScoreOf_nonneg (t : List Char) : 0 ≤ transitionScoreOf t :=
  le_min (by positivity) zero_le_one

lemma transitionScoreOf_le_one (t : List Char) : transitionScoreOf t ≤ 1 :=
  min_le_right _ _

lemma vocabDiversityOf_nonneg (t : List Char) : 0 ≤ vocabDiversityOf t :=
  div_nonneg (Nat.cast_nonneg _) (Nat.cast_nonneg _)

lemma vocabDiversityOf_le_one (t : List Char) : vocabDiversityOf t ≤ 1 := by
  apply div_le_one_of_le₀ _ (Nat.cast_nonneg _)
  exact_mod_cast ((wordsOf t).dedup_sublist).length_le

lemma lowDiversityScoreOf_nonneg (t : List Char) : 0 ≤ lowDiversityScoreOf t := by
  unfold lowDiversityScoreOf
  split_ifs <;> norm_num

lemma overallAIScoreOf_nonneg (t : List Char) : 0 ≤ overallAIScoreOf t := by
  apply le_min _ zero_le_one
  have h1 : (0 : ℝ) ≤ ((formalityScoreOf t : ℚ) : ℝ) := by
    exact_mod_cast formalityScoreOf_nonneg t
  have h2 : (0 : ℝ) ≤ ((repetitionScoreOf t : ℚ) : ℝ) := by
    exact_mod_cast repetitionScoreOf_nonneg t
  have h3 : (0 : ℝ) ≤ ((passiveScoreOf t : ℚ) : ℝ) := by
    exact_mod_cast passiveScoreOf_nonneg t
  have h4 : (0 : ℝ) ≤ 1 - sentenceVarietyOf t :=
    sub_nonneg.mpr (sentenceVarietyOf_le_one t)
  have h5 : (0 : ℝ) ≤ ((starterScoreOf t : ℚ) : ℝ) := by
    exact_mod_cast starterScoreOf_nonneg t
  have h6 : (0 : ℝ) ≤ ((lackOfContractionsOf t : ℚ) : ℝ) := by
    exact_mod_cast lackOfContractionsOf_nonneg t
  have h7 : (0 : ℝ) ≤ ((transitionScoreOf t : ℚ) : ℝ) := by
    exact_mod_cast transitionScoreOf_nonneg t
  have h8 : (0 : ℝ) ≤ ((lowDiversityScoreOf t : ℚ) : ℝ) := by
    exact_mod_cast lowDiversityScoreOf_nonneg t
  nlinarith

lemma overallAIScoreOf_le_one (t : List Char) : overallAIScoreOf t ≤ 1 :=
  min_le_right _ _

/-- The concrete input for the unclamped-`contractionScore` part of C2:
three contractions in a single sentence. -/
def c2str : String :=
  String.mk (withApo "it" "s" ++ ' ' :: withApo "it" "s" ++ ' ' :: withApo "it" "s" ++ ".".data)

/-- **C2.** Every score field except `contractionScore` lies in `[0,1]` for
every input; `contractionScore` is always non-negative but can exceed `1`
(witnessed by `c2str`, one sentence containing three contractions). -/
theorem score_bounds :
    (∀ s : String,
      (0 ≤ (analyzeAIPatterns s).formalityScore ∧ (analyzeAIPatterns s).formalityScore ≤ 1) ∧
      (0 ≤ (analyzeAIPatterns s).repetitionScore ∧ (analyzeAIPatterns s).repetitionScore ≤ 1) ∧
      (0 ≤ (analyzeAIPatterns s).passiveScore ∧ (analyzeAIPatterns s).passiveScore ≤ 1) ∧
      (0 ≤ (analyzeAIPatterns s).sentenceVariety ∧ (analyzeAIPatterns s).sentenceVariety ≤ 1) ∧
      (0 ≤ (analyzeAIPatterns s).starterScore ∧ (analyzeAIPatterns s).starterScore ≤ 1) ∧
      (0 ≤ (analyzeAIPatterns s).vocabDiversity ∧ (analyzeAIPatterns s).vocabDiversity ≤ 1) ∧
      (0 ≤ (analyzeAIPatterns s).transitionScore ∧ (analyzeAIPatterns s).transitionScore ≤ 1) ∧
      (0 ≤ (analyzeAIPatterns s).overallAIScore ∧ (analyzeAIPatterns s).overallAIScore ≤ 1) ∧
      0 ≤ (analyzeAIPatterns s).contractionScore) ∧
    (∃ s : String, 1 < (analyzeAIPatterns s).contractionScore) := by
  constructor
  · intro s
    unfold analyzeAIPatterns
    by_cases hg : (wordsOf s.data).length = 0 ∨ (sentencesOf s.data).length = 0
    · rw [if_pos hg]
      norm_num
    · rw [if_neg hg]
      exact ⟨⟨formalityScoreOf_nonneg _, formalityScoreOf_le_one _⟩,
        ⟨repetitionScoreOf_nonneg _, repetitionScoreOf_le_one _⟩,
        ⟨passiveScoreOf_nonneg _, passiveScoreOf_le_one _⟩,
        ⟨sentenceVarietyOf_nonneg _, sentenceVarietyOf_le_one _⟩,
        ⟨starterScoreOf_nonneg _, starterScoreOf_le_one _⟩,
        ⟨vocabDiversityOf_nonneg _, vocabDiversityOf_le_one _⟩,
        ⟨transitionScoreOf_nonneg _, transitionScoreOf_le_one _⟩,
        ⟨overallAIScoreOf_nonneg _, overallAIScoreOf_le_one _⟩,
        contractionScoreOf_nonneg _⟩
  · refine ⟨c2str, ?_⟩
    unfold analyzeAIPatterns
    rw [if_neg (by decide)]
    show (1 : ℚ) < contractionScoreOf c2str.data
    unfold contractionScoreOf
    rw [show contractionCountOf c2str.data = 3 from by decide,
        show (sentencesOf c2str.data).length = 1 from by decide]
    norm_num

/-! ### The formality pattern flag (C6) -/

lemma mem_optFlag {c : Prop} [Decidable c] {s e : String} (h : e ∈ optFlag c s) : e = s := by
  unfold optFlag at h
  split_ifs at h
  · simpa using h
  · simp at h

lemma optFlag_neg {c : Prop} [Decidable c] (s : String) (h : ¬ c) : optFlag c s = [] :=
  if_neg h

/-- A list cannot be a prefix of `a ++ r` when it neither has `a` as a prefix
nor is a prefix of `a` itself. -/
lemma not_isPrefix_append {p a : List Char} (hpa : ¬ List.IsPrefix p a)
    (hap : ¬ List.IsPrefix a p) (r : List Char) : ¬ List.IsPrefix p (a ++ r) := by
  intro hp
  have ha : List.IsPrefix a (a ++ r) := List.prefix_append a r
  rcases le_total p.length a.length with hlen | hlen
  · exact hpa (List.prefix_of_prefix_length_le hp ha hlen)
  · exact hap (List.prefix_of_prefix_length_le ha hp hlen)

/-- **C6 (amended).** For every non-degenerate input whose formal-word
density satisfies `formalCount/wordCount × 5 > 0.15` (strictly), the pattern
list contains an entry beginning with `"High formality level detected"`.
(The source checks `formalityScore > 0.15`, so exact equality does not
trigger the flag; see `formality_flag_boundary`.) -/
theorem formality_flag (s : String)
    (h : ¬ ((wordsOf s.data).length = 0 ∨ (sentencesOf s.data).length = 0))
    (hd : (0.15 : ℚ) < (formalCountOf s.data : ℚ) / ((wordsOf s.data).length : ℚ) * 5) :
    ∃ e ∈ (analyzeAIPatterns s).aiPatterns,
      List.IsPrefix (String.data "High formality level detected") (String.data e) := by
  unfold analyzeAIPatterns
  rw [if_neg h]
  show ∃ e ∈ aiPatternsOf s.data, _
  have hcond : formalityScoreOf s.data > 0.15 := lt_min hd (by norm_num)
  refine ⟨"High formality level detected (" ++ qFix1 (formalityScoreOf s.data * 100) ++ "%)",
    ?_, ?_⟩
  · unfold aiPatternsOf
    refine List.mem_append_left _ (List.mem_append_left _ (List.mem_append_left _
      (List.mem_append_left _ (List.mem_append_left _ (List.mem_append_left _
      (List.mem_append_left _ (List.mem_append_left _ (List.mem_append_left _
      (List.mem_append_left _ ?_)))))))))
    rw [optFlag, if_pos hcond]
    exact List.mem_singleton_self _
  · rw [String.data_append, String.data_append]
    refine ⟨String.data " (" ++ ((qFix1 (formalityScoreOf s.data * 100)).data ++
      String.data "%)"), ?_⟩
    rw [← List.append_assoc]
    rfl

/-- Witness for the amended C6 at the concrete input `"utilize utilize."`
(density `1/2 × 5 = 2.5 > 0.15`). -/
theorem formality_flag_witness :
    ((0.15 : ℚ) < (formalCountOf (String.data "utilize utilize.") : ℚ) /
        ((wordsOf (String.data "utilize utilize.")).length : ℚ) * 5) ∧
    ∃ e ∈ (analyzeAIPatterns "utilize utilize.").aiPatterns,
      List.IsPrefix (String.data "High formality level detected") (String.data e) := by
  have hd : (0.15 : ℚ) < (formalCountOf (String.data "utilize utilize.") : ℚ) /
      ((wordsOf (String.data "utilize utilize.")).length : ℚ) * 5 := by
    rw [show formalCountOf (String.data "utilize utilize.") = 1 from by decide,
        show (wordsOf (String.data "utilize utilize.")).length = 2 from by decide]
    norm_num
  exact ⟨hd, formality_flag "utilize utilize." (by decide) hd⟩

/-- The boundary input for C6: exactly 3 formal words among 100 tokens, so
`formalCount/wordCount × 5 = 0.15` exactly. -/
def c6str : String := "utilize utilize utilize" ++ String.join (List.replicate 96 " a") ++ " ."

set_option maxRecDepth 40000 in
/-- **C6 counterexample.** On `c6str` the density condition of the claim
holds with equality (`≥ 0.15`), the input is non-degenerate, and yet no
entry of the returned pattern list begins with
`"High formality level detected"`: the source requires a strict
`formalityScore > 0.15`. -/
theorem formality_flag_boundary :
    ¬ ((wordsOf c6str.data).length = 0 ∨ (sentencesOf c6str.data).length = 0) ∧
    ((0.15 : ℚ) ≤ (formalCountOf c6str.data : ℚ) /
        ((wordsOf c6str.data).length : ℚ) * 5) ∧
    ∀ e ∈ (analyzeAIPatterns c6str).aiPatterns,
      ¬ List.IsPrefix (String.data "High formality level detected") (String.data e) := by
  have hw : (wordsOf c6str.data).length = 100 := by decide
  have hf : formalCountOf c6str.data = 3 := by decide
  refine ⟨by decide, ?_, ?_⟩
  · rw [hw, hf]; norm_num
  · intro e he
    unfold analyzeAIPatterns at he
    rw [if_neg (by decide)] at he
    have hcond : ¬ (formalityScoreOf c6str.data > 0.15) := by
      unfold formalityScoreOf
      rw [hw, hf]
      rw [show ((3 : ℕ) : ℚ) / ((100 : ℕ) : ℚ) * 5 = 0.15 from by norm_num]
      simp
    unfold aiPatternsOf at he
    rw [optFlag_neg _ hcond] at he
    simp only [List.nil_append, List.mem_append] at he
    rcases he with ((((((((he | he) | he) | he) | he) | he) | he) | he) | he) | he
    · rw [mem_optFlag he, String.data_append, String.data_append, List.append_assoc]
      exact not_isPrefix_append (by decide) (by decide) _
    · rw [mem_optFlag he, String.data_append, String.data_append, List.append_assoc]
      exact not_isPrefix_append (by decide) (by decide) _
    · rw [mem_optFlag he, String.data_append, String.data_append, List.append_assoc]
      exact not_isPrefix_append (by decide) (by decide) _
    · rw [mem_optFlag he, String.data_append, String.data_append, List.append_assoc]
      exact not_isPrefix_append (by decide) (by decide) _
    · rw [mem_optFlag he]
      decide
    · rw [mem_optFlag he, String.data_append, String.data_append, List.append_assoc]
      exact not_isPrefix_append (by decide) (by decide) _
    · rw [mem_optFlag he, String.data_append, String.data_append, List.append_assoc]
      exact not_isPrefix_append (by decide) (by decide) _
    · rw [mem_optFlag he]
      decide
    · rw [mem_optFlag he, String.data_append, String.data_append, List.append_assoc]
      exact not_isPrefix_append (by decide) (by decide) _
    · rw [mem_optFlag he]
      decide

/-! ### Pass structure of `applyHumanization` (C8) -/

lemma jsToUpper_ws (c : Char) : isJsWs (jsToUpper c) = isJsWs c := by
  unfold jsToUpper
  split <;> rfl

lemma punct_not_ws {c : Char} (h : isPunct c = true) : isJsWs c = false := by
  simp only [isPunct, Bool.or_eq_true, beq_iff_eq] at h
  rcases h with ((((h | h) | h) | h) | h) | h <;> subst h <;> rfl

lemma term_not_ws {c : Char} (h : isTerm c = true) : isJsWs c = false := by
  simp only [isTerm, Bool.or_eq_true, beq_iff_eq] at h
  rcases h with (h | h) | h <;> subst h <;> rfl

lemma head_dropWhile_not_ws (l : List Char) :
    ∀ y, (l.dropWhile isJsWs).head? = some y → isJsWs y = false := by
  induction l with
  | nil => intro y hy; simp at hy
  | cons c cs ih =>
    intro y hy
    rw [List.dropWhile_cons] at hy
    split_ifs at hy with h
    · exact ih y hy
    · simp only [List.head?_cons, Option.some.injEq] at hy
      subst hy
      simpa using h

/-! #### `collapseWs` -/

lemma memWs_collapseWs (l : List Char) : memWs (collapseWs l) := by
  induction l with
  | nil => intro c hc; simp [collapseWs] at hc
  | cons c cs ih =>
    intro d hd
    by_cases hws : isJsWs c = true
    · by_cases hh : cs.head?.elim false isJsWs = true
      · rw [collapseWs, if_pos hws, if_pos hh] at hd
        exact ih d hd
      · rw [collapseWs, if_pos hws, if_neg hh] at hd
        rcases List.mem_cons.mp hd with h | h
        · intro _; exact h
        · exact ih d h
    · rw [collapseWs, if_neg hws] at hd
      rcases List.mem_cons.mp hd with h | h
      · subst h; intro hc; exact absurd hc hws
      · exact ih d h

lemma chainWs_collapseWs (l : List Char) : chainWs (collapseWs l) := by
  induction l with
  | nil => exact List.chain'_nil
  | cons c cs ih =>
    by_cases hws : isJsWs c = true
    · by_cases hh : cs.head?.elim false isJsWs = true
      · rw [collapseWs, if_pos hws, if_pos hh]; exact ih
      · rw [collapseWs, if_pos hws, if_neg hh]
        refine List.chain'_cons'.mpr ⟨?_, ih⟩
        intro y hy
        cases cs with
        | nil => simp [collapseWs] at hy
        | cons d ds =>
          simp only [Option.elim, List.head?_cons] at hh
          rw [collapseWs, if_neg (by simpa using hh)] at hy
          simp only [List.head?_cons, Option.mem_def, Option.some.injEq] at hy
          subst hy
          intro ⟨_, hd⟩
          exact absurd hd (by simpa using hh)
    · rw [collapseWs, if_neg hws]
      refine List.chain'_cons'.mpr ⟨?_, ih⟩
      intro y _
      intro ⟨hc, _⟩
      exact absurd hc hws

/-! #### `stripWsBefore` -/

lemma mem_stripWsBefore (tg : Char → Bool) (l : List Char) :
    ∀ c ∈ stripWsBefore tg l, c ∈ l := by
  induction l with
  | nil => intro c hc; simpa [stripWsBefore] using hc
  | cons c cs ih =>
    intro d hd
    rw [stripWsBefore] at hd
    split_ifs at hd with h
    · exact List.mem_cons_of_mem c (ih d hd)
    · rcases List.mem_cons.mp hd with h' | h'
      · exact h' ▸ List.mem_cons_self c cs
      · exact List.mem_cons_of_mem c (ih d h')

lemma memWs_stripWsBefore (tg : Char → Bool) {l : List Char} (h : memWs l) :
    memWs (stripWsBefore tg l) :=
  fun c hc => h c (mem_stripWsBefore tg l c hc)

lemma chainWs_stripWsBefore (tg : Char → Bool) {l : List Char} (h : chainWs l) :
    chainWs (stripWsBefore tg l) := by
  induction l with
  | nil => exact List.chain'_nil
  | cons c cs ih =>
    obtain ⟨hc, hcs⟩ := List.chain'_cons'.mp h
    rw [stripWsBefore]
    split_ifs with hdel
    · exact ih hcs
    · refine List.chain'_cons'.mpr ⟨?_, ih hcs⟩
      intro y hy
      by_cases hws : isJsWs c = true
      · cases cs with
        | nil => simp [stripWsBefore] at hy
        | cons d ds =>
          have hd : noWsPair c d := hc d rfl
          have hdws : isJsWs d = false := by
            by_contra hcon
            exact hd ⟨hws, by simpa using hcon⟩
          rw [stripWsBefore, if_neg (by simp [hdws])] at hy
          simp only [List.head?_cons, Option.mem_def, Option.some.injEq] at hy
          subst hy
          exact hd
      · intro ⟨h1, _⟩; exact absurd h1 hws

/-! #### `punctSpace` -/

lemma mem_punctSpace (l : List Char) (st : Bool) :
    ∀ c ∈ punctSpace l st, c ∈ l ∨ c = ' ' := by
  induction l generalizing st with
  | nil => intro c hc; simp [punctSpace] at hc
  | cons c cs ih =>
    intro d hd
    rw [punctSpace] at hd
    split_ifs at hd with h1 h2
    · rcases List.mem_cons.mp hd with h | h
      · exact Or.inl (h ▸ List.mem_cons_self c cs)
      · rcases List.mem_cons.mp h with h | h
        · exact Or.inr h
        · rcases ih true d h with h | h
          · exact Or.inl (List.mem_cons_of_mem c h)
          · exact Or.inr h
    · rcases ih true d hd with h | h
      · exact Or.inl (List.mem_cons_of_mem c h)
      · exact Or.inr h
    · rcases List.mem_cons.mp hd with h | h
      · exact Or.inl (h ▸ List.mem_cons_self c cs)
      · rcases ih false d h with h | h
        · exact Or.inl (List.mem_cons_of_mem c h)
        · exact Or.inr h

lemma memWs_punctSpace {l : List Char} (st : Bool) (h : memWs l) :
    memWs (punctSpace l st) := by
  intro c hc hws
  rcases mem_punctSpace l st c hc with h' | h'
  · exact h c h' hws
  · exact h'

lemma punctSpace_head_true (l : List Char) :
    ∀ y, (punctSpace l true).head? = some y → isJsWs y = false := by
  induction l with
  | nil => intro y hy; simp [punctSpace] at hy
  | cons c cs ih =>
    intro y hy
    rw [punctSpace] at hy
    split_ifs at hy with h1 h2
    · simp only [List.head?_cons, Option.some.injEq] at hy
      subst hy
      exact punct_not_ws h1
    · exact ih y hy
    · simp only [List.head?_cons, Option.some.injEq] at hy
      subst hy
      rcases not_and_or.mp h2 with h | h
      · simp at h
      · simpa using h

lemma punctSpace_head_false (c : Char) (cs : List Char) :
    (punctSpace (c :: cs) false).head? = some c := by
  rw [punctSpace]
  split_ifs with h1 h2
  · rfl
  · exact absurd h2.1 (by simp)
  · rfl

lemma chainWs_punctSpace {l : List Char} (st : Bool) (h : chainWs l) :
    chainWs (punctSpace l st) := by
  induction l generalizing st with
  | nil => exact List.chain'_nil
  | cons c cs ih =>
    obtain ⟨hc, hcs⟩ := List.chain'_cons'.mp h
    rw [punctSpace]
    split_ifs with h1 h2
    · refine List.chain'_cons'.mpr ⟨?_, List.chain'_cons'.mpr ⟨?_, ih true hcs⟩⟩
      · intro y hy
        simp only [List.head?_cons, Option.mem_def, Option.some.injEq] at hy
        subst hy
        intro ⟨hws, _⟩
        rw [punct_not_ws h1] at hws
        exact absurd hws (by simp)
      · intro y hy
        intro ⟨_, hws⟩
        rw [punctSpace_head_true cs y hy] at hws
        exact absurd hws (by simp)
    · exact ih true hcs
    · refine List.chain'_cons'.mpr ⟨?_, ih false hcs⟩
      intro y hy
      by_cases hws : isJsWs c = true
      · cases cs with
        | nil => simp [punctSpace] at hy
        | cons d ds =>
          rw [punctSpace_head_false d ds] at hy
          simp only [Option.mem_def, Option.some.injEq] at hy
          subst hy
          exact hc d rfl
      · intro ⟨hx, _⟩; exact absurd hx hws

/-! #### `collapseRuns` -/

lemma mem_collapseRuns (tc : Char) (l : List Char) :
    ∀ c ∈ collapseRuns tc l, c ∈ l := by
  induction l with
  | nil => intro c hc; simpa [collapseRuns] using hc
  | cons c cs ih =>
    intro d hd
    rw [collapseRuns] at hd
    split_ifs at hd with h
    · exact List.mem_cons_of_mem c (ih d hd)
    · rcases List.mem_cons.mp hd with h' | h'
      · exact h' ▸ List.mem_cons_self c cs
      · exact List.mem_cons_of_mem c (ih d h')

lemma memWs_collapseRuns (tc : Char) {l : List Char} (h : memWs l) :
    memWs (collapseRuns tc l) :=
  fun c hc => h c (mem_collapseRuns tc l c hc)

lemma collapseRuns_head (tc : Char) (l : List Char) :
    ∀ y, (collapseRuns tc l).head? = some y → y = tc ∨ l.head? = some y := by
  induction l with
  | nil => intro y hy; simp [collapseRuns] at hy
  | cons c cs ih =>
    intro y hy
    rw [collapseRuns] at hy
    split_ifs at hy with h
    · rcases ih y hy with h' | h'
      · exact Or.inl h'
      · rw [h.2] at h'
        simp only [Option.some.injEq] at h'
        exact Or.inl h'.symm
    · simp only [List.head?_cons, Option.some.injEq] at hy
      subst hy
      exact Or.inr rfl

lemma chainWs_collapseRuns (tc : Char) (htc : isJsWs tc = false) {l : List Char}
    (h : chainWs l) : chainWs (collapseRuns tc l) := by
  induction l with
  | nil => exact List.chain'_nil
  | cons c cs ih =>
    obtain ⟨hc, hcs⟩ := List.chain'_cons'.mp h
    rw [collapseRuns]
    split_ifs with hdel
    · exact ih hcs
    · refine List.chain'_cons'.mpr ⟨?_, ih hcs⟩
      intro y hy
      by_cases hws : isJsWs c = true
      · rcases collapseRuns_head tc cs y hy with h' | h'
        · subst h'
          intro ⟨_, hx⟩
          rw [htc] at hx
          exact absurd hx (by simp)
        · cases cs with
          | nil => simp at h'
          | cons d ds =>
            simp only [List.head?_cons, Option.some.injEq] at h'
            subst h'
            exact hc d rfl
      · intro ⟨hx, _⟩; exact absurd hx hws

/-! #### `upperAfter` -/

lemma upperAfter_head (c : Char) (cs : List Char) (st : ℕ) :
    ∃ e, (upperAfter (c :: cs) st).head? = some e ∧ isJsWs e = isJsWs c := by
  by_cases h1 : isTerm c = true
  · rw [upperAfter, if_pos h1]; exact ⟨c, rfl, rfl⟩
  · by_cases h2 : isJsWs c = true
    · rw [upperAfter, if_neg h1, if_pos h2]; exact ⟨c, rfl, rfl⟩
    · by_cases h3 : isWordChar c = true
      · rw [upperAfter, if_neg h1, if_neg h2, if_pos h3]
        by_cases h4 : st = 2
        · rw [if_pos h4]; exact ⟨jsToUpper c, rfl, jsToUpper_ws c⟩
        · rw [if_neg h4]; exact ⟨c, rfl, rfl⟩
      · rw [upperAfter, if_neg h1, if_neg h2, if_neg h3]; exact ⟨c, rfl, rfl⟩

lemma mem_upperAfter (l : List Char) (st : ℕ) :
    ∀ y ∈ upperAfter l st, y ∈ l ∨ ∃ c ∈ l, y = jsToUpper c := by
  induction l generalizing st with
  | nil => intro y hy; simp [upperAfter] at hy
  | cons c cs ih =>
    intro y hy
    have step : ∀ {e : Char} {st' : ℕ}, y ∈ e :: upperAfter cs st' →
        (e = c ∨ e = jsToUpper c) → y ∈ c :: cs ∨ ∃ d ∈ c :: cs, y = jsToUpper d := by
      intro e st' hmem he
      rcases List.mem_cons.mp hmem with h | h
      · subst h
        rcases he with h | h
        · exact Or.inl (h ▸ List.mem_cons_self c cs)
        · exact Or.inr ⟨c, List.mem_cons_self c cs, h⟩
      · rcases ih st' y h with h | ⟨d, hd, hyd⟩
        · exact Or.inl (List.mem_cons_of_mem c h)
        · exact Or.inr ⟨d, List.mem_cons_of_mem c hd, hyd⟩
    by_cases h1 : isTerm c = true
    · rw [upperAfter, if_pos h1] at hy; exact step hy (Or.inl rfl)
    · by_cases h2 : isJsWs c = true
      · rw [upperAfter, if_neg h1, if_pos h2] at hy; exact step hy (Or.inl rfl)
      · by_cases h3 : isWordChar c = true
        · by_cases h4 : st = 2
          · rw [upperAfter, if_neg h1, if_neg h2, if_pos h3, if_pos h4] at hy
            exact step hy (Or.inr rfl)
          · rw [upperAfter, if_neg h1, if_neg h2, if_pos h3, if_neg h4] at hy
            exact step hy (Or.inl rfl)
        · rw [upperAfter, if_neg h1, if_neg h2, if_neg h3] at hy
          exact step hy (Or.inl rfl)

lemma memWs_upperAfter {l : List Char} (st : ℕ) (h : memWs l) :
    memWs (upperAfter l st) := by
  intro y hy hws
  rcases mem_upperAfter l st y hy with h' | ⟨c, hc, rfl⟩
  · exact h y h' hws
  · rw [jsToUpper_ws] at hws
    rw [h c hc hws]
    rfl

lemma chainWs_upperAfter {l : List Char} (st : ℕ) (h : chainWs l) :
    chainWs (upperAfter l st) := by
  induction l generalizing st with
  | nil => exact List.chain'_nil
  | cons c cs ih =>
    obtain ⟨hc, hcs⟩ := List.chain'_cons'.mp h
    have tailChain : ∀ (e : Char) (st' : ℕ), isJsWs e = isJsWs c →
        chainWs (e :: upperAfter cs st') := by
      intro e st' he
      refine List.chain'_cons'.mpr ⟨?_, ih st' hcs⟩
      intro y hy
      cases cs with
      | nil => simp [upperAfter] at hy
      | cons d ds =>
        obtain ⟨e', he', hwse'⟩ := upperAfter_head d ds st'
        rw [he'] at hy
        simp only [Option.mem_def, Option.some.injEq] at hy
        subst hy
        intro ⟨hx1, hx2⟩
        rw [he] at hx1
        rw [hwse'] at hx2
        exact hc d rfl ⟨hx1, hx2⟩
    by_cases h1 : isTerm c = true
    · rw [upperAfter, if_pos h1]; exact tailChain c 1 rfl
    · by_cases h2 : isJsWs c = true
      · rw [upperAfter, if_neg h1, if_pos h2]; exact tailChain c _ rfl
      · by_cases h3 : isWordChar c = true
        · by_cases h4 : st = 2
          · rw [upperAfter, if_neg h1, if_neg h2, if_pos h3, if_pos h4]
            exact tailChain (jsToUpper c) 0 (jsToUpper_ws c)
          · rw [upperAfter, if_neg h1, if_neg h2, if_pos h3, if_neg h4]
            exact tailChain c 0 rfl
        · rw [upperAfter, if_neg h1, if_neg h2, if_neg h3]
          exact tailChain c 0 rfl

/-! #### `jsCapFirst` and `dashSpace` -/

lemma memWs_jsCapFirst {l : List Char} (h : memWs l) : memWs (jsCapFirst l) := by
  cases l with
  | nil => intro c hc; simp [jsCapFirst] at hc
  | cons c cs =>
    intro y hy hws
    rw [jsCapFirst] at hy
    rcases List.mem_cons.mp hy with h' | h'
    · subst h'
      rw [jsToUpper_ws] at hws
      rw [h c (List.mem_cons_self c cs) hws]
      rfl
    · exact h y (List.mem_cons_of_mem c h') hws

lemma chainWs_jsCapFirst {l : List Char} (h : chainWs l) : chainWs (jsCapFirst l) := by
  cases l with
  | nil => exact List.chain'_nil
  | cons c cs =>
    obtain ⟨hc, hcs⟩ := List.chain'_cons'.mp h
    rw [jsCapFirst]
    refine List.chain'_cons'.mpr ⟨?_, hcs⟩
    intro y hy
    intro ⟨hx1, hx2⟩
    rw [jsToUpper_ws] at hx1
    exact hc y hy ⟨hx1, hx2⟩

lemma dashSpaceF_head_not_ws (fuel : ℕ) {c : Char} (cs : List Char)
    (h : isJsWs c = false) :
    (dashSpaceF fuel (c :: cs)).head? = some c := by
  cases fuel with
  | zero => rfl
  | succ n => rw [dashSpaceF, if_neg (by simp [h])]; rfl

lemma mem_dashSpaceF (fuel : ℕ) (l : List Char) :
    ∀ c ∈ dashSpaceF fuel l, c ∈ l ∨ c = ' ' ∨ c = '-' := by
  induction fuel generalizing l with
  | zero => intro c hc; exact Or.inl hc
  | succ n ih =>
    cases l with
    | nil => intro c hc; simp [dashSpaceF] at hc
    | cons c cs =>
      intro d hd
      rw [dashSpaceF] at hd
      split_ifs at hd with h1 h2
      · rcases List.mem_cons.mp hd with h | h
        · exact Or.inr (Or.inl h)
        · rcases List.mem_cons.mp h with h | h
          · exact Or.inr (Or.inr h)
          · rcases List.mem_cons.mp h with h | h
            · exact Or.inr (Or.inl h)
            · rcases ih _ d h with h' | h'
              · refine Or.inl (List.mem_cons_of_mem c ?_)
                have s1 : d ∈ (cs.dropWhile isJsWs).tail :=
                  (List.dropWhile_suffix isJsWs).subset h'
                have s2 : d ∈ cs.dropWhile isJsWs :=
                  (List.tail_suffix _).subset s1
                exact (List.dropWhile_suffix isJsWs).subset s2
              · exact Or.inr h'
      · rcases List.mem_cons.mp hd with h | h
        · exact Or.inl (h ▸ List.mem_cons_self c cs)
        · rcases ih cs d h with h' | h'
          · exact Or.inl (List.mem_cons_of_mem c h')
          · exact Or.inr h'
      · rcases List.mem_cons.mp hd with h | h
        · exact Or.inl (h ▸ List.mem_cons_self c cs)
        · rcases ih cs d h with h' | h'
          · exact Or.inl (List.mem_cons_of_mem c h')
          · exact Or.inr h'

lemma memWs_dashSpace {l : List Char} (h : memWs l) : memWs (dashSpace l) := by
  intro c hc hws
  rcases mem_dashSpaceF l.length l c hc with h' | h' | h'
  · exact h c h' hws
  · exact h'
  · subst h'; simp [isJsWs] at hws

lemma chainWs_dashSpaceF (fuel : ℕ) :
    ∀ l : List Char, chainWs l → chainWs (dashSpaceF fuel l) := by
  induction fuel with
  | zero => intro l h; exact h
  | succ n ih =>
    intro l h
    cases l with
    | nil => exact List.chain'_nil
    | cons c cs =>
      obtain ⟨hc, hcs⟩ := List.chain'_cons'.mp h
      rw [dashSpaceF]
      split_ifs with h1 h2
      · -- hit: ' ' :: '-' :: ' ' :: dashSpaceF n X
        have hsub : ((cs.dropWhile isJsWs).tail.dropWhile isJsWs) <:+ cs := by
          have s1 : (cs.dropWhile isJsWs).tail.dropWhile isJsWs <:+
              (cs.dropWhile isJsWs).tail := List.dropWhile_suffix isJsWs
          have s2 : (cs.dropWhile isJsWs).tail <:+ cs.dropWhile isJsWs :=
            List.tail_suffix _
          have s3 : cs.dropWhile isJsWs <:+ cs := List.dropWhile_suffix isJsWs
          exact (s1.trans s2).trans s3
        have hx : chainWs (dashSpaceF n ((cs.dropWhile isJsWs).tail.dropWhile isJsWs)) :=
          ih _ (List.Chain'.suffix hcs hsub)
        refine List.chain'_cons'.mpr ⟨?_, List.chain'_cons'.mpr ⟨?_,
          List.chain'_cons'.mpr ⟨?_, hx⟩⟩⟩
        · intro y hy
          simp only [List.head?_cons, Option.mem_def, Option.some.injEq] at hy
          subst hy
          intro ⟨_, hx2⟩
          simp [isJsWs] at hx2
        · intro y hy
          intro ⟨hx1, _⟩
          simp [isJsWs] at hx1
        · intro y hy
          cases hX : (cs.dropWhile isJsWs).tail.dropWhile isJsWs with
          | nil =>
            rw [hX] at hy
            cases n with
            | zero => simp [dashSpaceF] at hy
            | succ m => simp [dashSpaceF] at hy
          | cons d ds =>
            have hd : isJsWs d = false :=
              head_dropWhile_not_ws (cs.dropWhile isJsWs).tail d (by rw [hX]; rfl)
            rw [hX, dashSpaceF_head_not_ws n ds hd] at hy
            simp only [Option.mem_def, Option.some.injEq] at hy
            subst hy
            intro ⟨_, hx2⟩
            rw [hd] at hx2
            exact absurd hx2 (by simp)
      · -- ws head, no dash pattern: c :: dashSpaceF n cs
        refine List.chain'_cons'.mpr ⟨?_, ih cs hcs⟩
        intro y hy
        cases cs with
        | nil =>
          cases n with
          | zero => simp [dashSpaceF] at hy
          | succ m => simp [dashSpaceF] at hy
        | cons d ds =>
          have hd : isJsWs d = false := by
            by_contra hcon
            exact hc d rfl ⟨h1, by simpa using hcon⟩
          rw [dashSpaceF_head_not_ws n ds hd] at hy
          simp only [Option.mem_def, Option.some.injEq] at hy
          subst hy
          intro ⟨_, hx2⟩
          rw [hd] at hx2
          exact absurd hx2 (by simp)
      · -- non-ws head
        refine List.chain'_cons'.mpr ⟨?_, ih cs hcs⟩
        intro y hy
        intro ⟨hx1, _⟩
        exact absurd hx1 (by simpa using h1)

lemma chainWs_dashSpace {l : List Char} (h : chainWs l) : chainWs (dashSpace l) :=
  chainWs_dashSpaceF l.length l h

/-! #### `jsTrim` and the clean-output theorem -/

lemma jsTrim_prefix_dropWhile (l : List Char) :
    jsTrim l <+: l.dropWhile isJsWs := by
  rw [← List.reverse_suffix]
  rw [jsTrim, List.reverse_reverse]
  exact List.dropWhile_suffix isJsWs

lemma jsTrim_within (l : List Char) : jsTrim l <:+: l :=
  (jsTrim_prefix_dropWhile l).isInfix.trans (List.dropWhile_suffix isJsWs).isInfix

lemma jsTrim_head (l : List Char) :
    ∀ c, (jsTrim l).head? = some c → isJsWs c = false := by
  intro c hc
  obtain ⟨t, ht⟩ := jsTrim_prefix_dropWhile l
  cases hj : jsTrim l with
  | nil => rw [hj] at hc; simp at hc
  | cons b bs =>
    rw [hj] at hc ht
    simp only [List.head?_cons, Option.some.injEq] at hc
    subst hc
    exact head_dropWhile_not_ws l b (by rw [← ht]; rfl)

lemma jsTrim_last (l : List Char) :
    ∀ c, (jsTrim l).getLast? = some c → isJsWs c = false := by
  intro c hc
  have hrev : (jsTrim l).reverse = (l.dropWhile isJsWs).reverse.dropWhile isJsWs := by
    rw [jsTrim, List.reverse_reverse]
  have hhead : ((l.dropWhile isJsWs).reverse.dropWhile isJsWs).head? = some c := by
    rw [← hrev, List.head?_reverse, hc]
  exact head_dropWhile_not_ws (l.dropWhile isJsWs).reverse c hhead

lemma cleanOutput_finalPolishL (t : List Char) : cleanOutput (finalPolishL t) := by
  have m0 := memWs_collapseWs t
  have c0 := chainWs_collapseWs t
  have m1 := memWs_stripWsBefore isPunct m0
  have c1 := chainWs_stripWsBefore isPunct c0
  have m2 := memWs_punctSpace false m1
  have c2 := chainWs_punctSpace false c1
  have m3 := memWs_collapseRuns '.' m2
  have c3 := chainWs_collapseRuns '.' (by rfl) c2
  have m4 := memWs_collapseRuns '?' m3
  have c4 := chainWs_collapseRuns '?' (by rfl) c3
  have m5 := memWs_collapseRuns '!' m4
  have c5 := chainWs_collapseRuns '!' (by rfl) c4
  have m6 := memWs_upperAfter 0 m5
  have c6 := chainWs_upperAfter 0 c5
  have m7 := memWs_jsCapFirst m6
  have c7 := chainWs_jsCapFirst c6
  have m8 := memWs_dashSpace m7
  have c8 := chainWs_dashSpace c7
  have m9 := memWs_stripWsBefore (fun c => c == ',') m8
  have c9 := chainWs_stripWsBefore (fun c => c == ',') c8
  have m10 := memWs_stripWsBefore (fun c => c == '.') m9
  have c10 := chainWs_stripWsBefore (fun c => c == '.') c9
  refine ⟨?_, ?_, ?_, ?_⟩
  · intro c hc hws
    exact m10 c ((jsTrim_within _).subset hc) hws
  · exact List.Chain'.infix c10 (jsTrim_within _)
  · exact jsTrim_head _
  · exact jsTrim_last _

lemma ws_not_word {c : Char} (h : isJsWs c = true) : isWordChar c = false := by
  simp only [isJsWs, Bool.or_eq_true, beq_iff_eq] at h
  rcases h with ((((h | h) | h) | h) | h) | h <;> subst h <;> rfl

lemma isWordChar_toLower (c : Char) : isWordChar (jsToLower c) = isWordChar c := by
  unfold jsToLower
  split <;> first | rfl | decide

lemma isWordChar_toUpper (c : Char) : isWordChar (jsToUpper c) = isWordChar c := by
  unfold jsToUpper
  split <;> first | rfl | decide

lemma toLower_idem (c : Char) : jsToLower (jsToLower c) = jsToLower c := by
  conv_lhs => arg 1; rw [jsToLower.eq_def]
  split <;> first | rfl | decide

lemma toLowerL_idem (l : List Char) : toLowerL (toLowerL l) = toLowerL l := by
  simp only [toLowerL, List.map_map]
  exact List.map_congr_left fun c _ => toLower_idem c

/-! ### Whole-word occurrences (C5): the run structure of `splitRuns` -/

lemma takeWhile_eq_take_of {l : List Char} {n : ℕ}
    (h1 : ∀ c ∈ l.take n, isWordChar c = true)
    (h2 : ∀ c, (l.drop n).head? = some c → isWordChar c = false) :
    l.takeWhile isWordChar = l.take n ∧ l.dropWhile isWordChar = l.drop n := by
  induction n generalizing l with
  | zero =>
    cases l with
    | nil => exact ⟨rfl, rfl⟩
    | cons c cs =>
      have hc : isWordChar c = false := h2 c rfl
      constructor
      · rw [List.take_zero]
        exact List.takeWhile_cons_of_neg (by simp [hc])
      · rw [List.drop_zero]
        exact List.dropWhile_cons_of_neg (by simp [hc])
  | succ n ih =>
    cases l with
    | nil => exact ⟨rfl, rfl⟩
    | cons c cs =>
      have hc : isWordChar c = true := h1 c (by simp)
      have hih := ih (l := cs) (fun d hd => h1 d (by simp [hd])) (fun d hd => h2 d hd)
      rw [List.takeWhile_cons_of_pos hc, List.dropWhile_cons_of_pos hc,
        List.take_succ_cons, List.drop_succ_cons, hih.1, hih.2]
      exact ⟨rfl, rfl⟩

lemma replaceWordScan_nil (needle : List Char) (mkR : List Char → List Char)
    (fuel : ℕ) (prevW : Bool) :
    replaceWordScan true needle mkR fuel [] prevW = [] := by
  cases fuel <;> rfl

lemma replaceWordScan_cons_nomatch (needle : List Char) (mkR : List Char → List Char)
    (fuel : ℕ) (c : Char) (cs : List Char) (prevW : Bool)
    (h : ¬ (prevW = false ∧ toLowerL ((c :: cs).take needle.length) = needle ∧
        ((c :: cs).drop needle.length).head?.elim true
          (fun d => decide (isWordChar d = false)) = true)) :
    replaceWordScan true needle mkR (fuel + 1) (c :: cs) prevW =
      c :: replaceWordScan true needle mkR fuel cs (isWordChar c) := by
  simp only [replaceWordScan]
  rw [if_neg]
  intro hc
  exact h ⟨hc.1, by simpa using hc.2.1, hc.2.2⟩

lemma needle_head_no_sep_match {needle : List Char} {c : Char} {cs : List Char}
    (hne : needle ≠ []) (hwn : ∀ d ∈ needle, isWordChar d = true)
    (hcs : isWordChar c = false) :
    toLowerL ((c :: cs).take needle.length) ≠ needle := by
  intro hm
  cases needle with
  | nil => exact hne rfl
  | cons d ds =>
    rw [List.length_cons, List.take_succ_cons] at hm
    simp only [toLowerL, List.map_cons] at hm
    have h1 : jsToLower c = d := (List.cons.inj hm).1
    have h2 : isWordChar d = true := hwn d (by simp)
    rw [← h1, isWordChar_toLower, hcs] at h2
    simp at h2

lemma replaceWordScan_sep (needle : List Char) (mkR : List Char → List Char)
    (hne : needle ≠ []) (hwn : ∀ d ∈ needle, isWordChar d = true)
    (fuel : ℕ) {c : Char} (cs : List Char) (prevW : Bool)
    (hc : isWordChar c = false) :
    replaceWordScan true needle mkR (fuel + 1) (c :: cs) prevW =
      c :: replaceWordScan true needle mkR fuel cs false := by
  rw [replaceWordScan_cons_nomatch _ _ _ _ _ _
    (fun h => needle_head_no_sep_match hne hwn hc h.2.1), hc]

lemma replaceWordScan_head_sep (needle : List Char) (mkR : List Char → List Char)
    (hne : needle ≠ []) (hwn : ∀ d ∈ needle, isWordChar d = true)
    (fuel : ℕ) (rest : List Char)
    (hr : ∀ d, rest.head? = some d → isWordChar d = false) :
    ∀ d, (replaceWordScan true needle mkR fuel rest false).head? = some d →
      isWordChar d = false := by
  cases rest with
  | nil =>
    rw [replaceWordScan_nil]
    intro d hd
    simp at hd
  | cons c cs =>
    cases fuel with
    | zero =>
      intro d hd
      rw [show replaceWordScan true needle mkR 0 (c :: cs) false = c :: cs from rfl] at hd
      simp only [List.head?_cons, Option.some.injEq] at hd
      rw [← hd]
      exact hr c rfl
    | succ f =>
      rw [replaceWordScan_sep _ _ hne hwn _ _ _ (hr c rfl)]
      intro d hd
      simp only [List.head?_cons, Option.some.injEq] at hd
      rw [← hd]
      exact hr c rfl

lemma replaceWordScan_lower_head_sep (needle : List Char) (mkR : List Char → List Char)
    (hne : needle ≠ []) (hwn : ∀ d ∈ needle, isWordChar d = true)
    (fuel : ℕ) (rest : List Char)
    (hr : ∀ d, rest.head? = some d → isWordChar d = false) :
    ∀ d, (toLowerL (replaceWordScan true needle mkR fuel rest false)).head? = some d →
      isWordChar d = false := by
  intro d hd
  simp only [toLowerL, List.head?_map] at hd
  cases he : (replaceWordScan true needle mkR fuel rest false).head? with
  | none => rw [he] at hd; simp at hd
  | some e =>
    rw [he] at hd
    simp only [Option.map_some', Option.some.injEq] at hd
    rw [← hd, isWordChar_toLower]
    exact replaceWordScan_head_sep _ _ hne hwn _ _ hr e he

lemma term_not_word {c : Char} (h : isTerm c = true) : isWordChar c = false := by
  simp only [isTerm, Bool.or_eq_true, beq_iff_eq] at h
  rcases h with (h | h) | h <;> subst h <;> rfl

lemma word_not_ws {c : Char} (h : isWordChar c = true) : isJsWs c = false := by
  by_cases hws : isJsWs c = true
  · rw [ws_not_word hws] at h
    simp at h
  · revert hws
    cases isJsWs c <;> simp

lemma punct_not_word {c : Char} (h : isPunct c = true) : isWordChar c = false := by
  simp only [isPunct, Bool.or_eq_true, beq_iff_eq] at h
  rcases h with ((((h | h) | h) | h) | h) | h <;> subst h <;> rfl

/-- In polished text, punctuation is followed by a space, a period, a comma,
or the end of the string. -/
def punctFollow (a b : Char) : Prop :=
  isPunct a = true → (b = ' ' ∨ b = '.' ∨ b = ',')

/-- Pairwise form of "no whitespace stands before a `target` character". -/
def wsNotBefore (target : Char → Bool) (a b : Char) : Prop :=
  isJsWs a = true → target b = false

/-- A whitespace character may precede a punctuation character only when the
character before the whitespace is itself punctuation (the flag records
whether the previous character was punctuation). -/
def wsPunctOK : Bool → List Char → Prop
  | _, [] => True
  | b, c :: cs =>
    (isJsWs c = true → ∀ d, cs.head? = some d → isPunct d = true → b = true) ∧
    wsPunctOK (isPunct c) cs

/-- The net effect of `stripWsBefore isPunct` followed by `punctSpace` on
already-clean text: one space after every punctuation character, whitespace
directly after punctuation absorbed (the flag records a pending
absorption). -/
def spacedF (b : Bool) : List Char → List Char
  | [] => []
  | c :: cs =>
    if isPunct c = true then c :: ' ' :: spacedF true cs
    else if b = true ∧ isJsWs c = true then spacedF true cs
    else c :: spacedF false cs

/-- Drop the leading space absorbed by a pending punctuation absorption. -/
def dropB : Bool → List Char → List Char
  | true, c :: r => if c = ' ' then r else c :: r
  | _, l => l

/-- The trailing space that `punctSpace` appends after a final punctuation
character. -/
def tailSp : List Char → List Char
  | [] => []
  | [c] => if isPunct c = true then [' '] else []
  | _ :: c :: cs => tailSp (c :: cs)

/-! ### Idempotence of `finalPolish` (C4): character facts -/

lemma toUpper_idem (c : Char) : jsToUpper (jsToUpper c) = jsToUpper c := by
  conv_lhs => arg 1; rw [jsToUpper.eq_def]
  split <;> first | rfl | decide

lemma isPunct_toUpper (c : Char) : isPunct (jsToUpper c) = isPunct c := by
  unfold jsToUpper
  split <;> first | rfl | decide

lemma isTerm_toUpper (c : Char) : isTerm (jsToUpper c) = isTerm c := by
  unfold jsToUpper
  split <;> first | rfl | decide

lemma toUpper_fix_of_nonword {c : Char} (h : isWordChar c = false) :
    jsToUpper c = c := by
  unfold jsToUpper
  split
  all_goals first
    | rfl
    | (exact absurd h (by decide))

lemma ws_not_punct {c : Char} (h : isJsWs c = true) : isPunct c = false := by
  cases hp : isPunct c with
  | false => rfl
  | true => rw [punct_not_ws hp] at h; exact absurd h (by simp)

lemma term_is_punct {c : Char} (h : isTerm c = true) : isPunct c = true := by
  simp only [isTerm, Bool.or_eq_true, beq_iff_eq] at h
  rcases h with (h | h) | h <;> subst h <;> rfl

lemma word_not_punct {c : Char} (h : isWordChar c = true) : isPunct c = false := by
  cases hp : isPunct c with
  | false => rfl
  | true => rw [punct_not_word hp] at h; exact absurd h (by simp)

lemma word_not_term {c : Char} (h : isWordChar c = true) : isTerm c = false := by
  cases ht : isTerm c with
  | false => rfl
  | true => rw [term_not_word ht] at h; exact absurd h (by simp)

lemma punct_ne_space {c : Char} (h : isPunct c = true) : c ≠ ' ' := by
  intro he
  subst he
  exact absurd h (by decide)

/-! ### Idempotence of `finalPolish` (C4): stages that fix clean text -/

lemma collapseWs_id {l : List Char} (hm : memWs l) (hc : chainWs l) :
    collapseWs l = l := by
  induction l with
  | nil => rfl
  | cons c cs ih =>
    obtain ⟨hpair, hcs⟩ := List.chain'_cons'.mp hc
    have ihcs : collapseWs cs = cs :=
      ih (fun d hd => hm d (List.mem_cons_of_mem c hd)) hcs
    by_cases hws : isJsWs c = true
    · have hh : cs.head?.elim false isJsWs = false := by
        cases cs with
        | nil => rfl
        | cons d ds =>
          have hd := hpair d rfl
          simp only [Option.elim, List.head?_cons]
          cases hdws : isJsWs d with
          | false => rfl
          | true => exact absurd ⟨hws, hdws⟩ hd
      rw [collapseWs, if_pos hws, if_neg (by simp [hh]), ihcs, hm c (List.mem_cons_self c _) hws]
    · rw [collapseWs, if_neg hws, ihcs]

lemma collapseRuns_id {tc : Char} {l : List Char}
    (h : List.Chain' (fun a b => a = tc → b ≠ tc) l) : collapseRuns tc l = l := by
  induction l with
  | nil => rfl
  | cons c cs ih =>
    obtain ⟨hpair, hcs⟩ := List.chain'_cons'.mp h
    have hdel : ¬ (c = tc ∧ cs.head? = some tc) := by
      rintro ⟨rfl, hh⟩
      cases cs with
      | nil => simp at hh
      | cons d ds =>
        simp only [List.head?_cons, Option.some.injEq] at hh
        exact hpair d rfl rfl hh
    rw [collapseRuns, if_neg hdel, ih hcs]

lemma dashSpaceF_id (fuel : ℕ) : ∀ {l : List Char}, memWs l → chainWs l →
    dashSpaceF fuel l = l := by
  induction fuel with
  | zero => intro l _ _; rfl
  | succ n ih =>
    intro l hm hc
    cases l with
    | nil => rfl
    | cons c cs =>
      obtain ⟨hpair, hcs⟩ := List.chain'_cons'.mp hc
      have hmcs : memWs cs := fun d hd => hm d (List.mem_cons_of_mem c hd)
      by_cases hws : isJsWs c = true
      · have hdw : cs.dropWhile isJsWs = cs := by
          cases cs with
          | nil => rfl
          | cons d ds =>
            have hd : isJsWs d = false := by
              cases hdws : isJsWs d with
              | false => rfl
              | true => exact absurd ⟨hws, hdws⟩ (hpair d rfl)
            simp [List.dropWhile_cons, hd]
        by_cases hhit : (cs.dropWhile isJsWs).head? = some '-' ∧
            ((cs.dropWhile isJsWs).tail.head?.elim false isJsWs) = true
        · -- the spaced-dash group is reproduced verbatim
          rw [dashSpaceF, if_pos hws, if_pos hhit]
          rw [hdw] at hhit
          obtain ⟨hdash, hwsnext⟩ := hhit
          cases cs with
          | nil => simp at hdash
          | cons d ds =>
            simp only [List.head?_cons, Option.some.injEq] at hdash
            subst hdash
            cases ds with
            | nil => simp at hwsnext
            | cons e es =>
              simp only [List.tail_cons, List.head?_cons, Option.elim] at hwsnext
              obtain ⟨hp2, hcs2⟩ := List.chain'_cons'.mp hcs
              obtain ⟨hp3, hcs3⟩ := List.chain'_cons'.mp hcs2
              have hes : es.dropWhile isJsWs = es := by
                cases es with
                | nil => rfl
                | cons f fs =>
                  have hf : isJsWs f = false := by
                    cases hfw : isJsWs f with
                    | false => rfl
                    | true => exact absurd ⟨hwsnext, hfw⟩ (hp3 f rfl)
                  simp [List.dropWhile_cons, hf]
              have hmes : memWs es := fun d hd => hm d (by simp [hd])
              have hces : chainWs es := hcs3
              have hce : e = ' ' := hm e (by simp) hwsnext
              have hcc : c = ' ' := hm c (List.mem_cons_self c _) hws
              have he2 : List.dropWhile isJsWs (e :: es) = es := by
                rw [List.dropWhile_cons, if_pos hwsnext, hes]
              rw [hdw]
              simp only [List.tail_cons]
              rw [he2, ih hmes hces, hcc, hce]
        · rw [dashSpaceF, if_pos hws, if_neg hhit, ih hmcs hcs]
      · rw [dashSpaceF, if_neg (by simp [hws]), ih hmcs hcs]

lemma dashSpace_id {l : List Char} (hm : memWs l) (hc : chainWs l) :
    dashSpace l = l :=
  dashSpaceF_id l.length hm hc

lemma stripWsBefore_cons_nonws (target : Char → Bool) {c : Char} (cs : List Char)
    (h : isJsWs c = false) :
    stripWsBefore target (c :: cs) = c :: stripWsBefore target cs := by
  rw [stripWsBefore, if_neg (by simp [h])]

lemma jsTrim_id {l : List Char}
    (hhead : ∀ d, l.head? = some d → isJsWs d = false)
    (hlast : ∀ d, l.getLast? = some d → isJsWs d = false) :
    jsTrim l = l := by
  cases l with
  | nil => rfl
  | cons c cs =>
    have h1 : (c :: cs).dropWhile isJsWs = c :: cs := by
      simp [List.dropWhile_cons, hhead c rfl]
    rw [jsTrim, h1]
    cases hrev : (c :: cs).reverse with
    | nil => exact absurd hrev (by simp)
    | cons d ds =>
      have hd : isJsWs d = false := by
        apply hlast
        rw [← List.head?_reverse, hrev]
        rfl
      rw [List.dropWhile_cons, if_neg (by simp [hd]), ← hrev,
        List.reverse_reverse]

lemma jsTrim_append_ws {a : Char} (ha : isJsWs a = true) (l : List Char) :
    jsTrim (l ++ [a]) = jsTrim l := by
  cases hdl : l.dropWhile isJsWs with
  | nil =>
    have h1 : (l ++ [a]).dropWhile isJsWs = [].dropWhile isJsWs ++ [a] → True := fun _ => trivial
    have h2 : (l ++ [a]).dropWhile isJsWs = [] := by
      rw [List.dropWhile_append, hdl]
      simp [List.dropWhile_cons, ha]
    rw [jsTrim, jsTrim, hdl, h2]
  | cons d ds =>
    have h2 : (l ++ [a]).dropWhile isJsWs = d :: (ds ++ [a]) := by
      rw [List.dropWhile_append, hdl]
      simp
    rw [jsTrim, jsTrim, hdl, h2]
    simp only [List.reverse_cons, List.reverse_append, List.reverse_cons,
      List.reverse_nil, List.nil_append, List.cons_append, List.singleton_append]
    rw [List.dropWhile_cons, if_pos ha]


/-! ### Idempotence of `finalPolish` (C4): how letter rewrites act on text -/

/-- `upperAfter` and `jsCapFirst` leave each character alone or uppercase a
word character in place. -/
def charOK (a b : Char) : Prop :=
  b = a ∨ (isWordChar a = true ∧ b = jsToUpper a)

lemma charOK_rfl (c : Char) : charOK c c := Or.inl rfl

lemma charOK_up (c : Char) : charOK c (jsToUpper c) := by
  by_cases h : isWordChar c = true
  · exact Or.inr ⟨h, rfl⟩
  · exact Or.inl (toUpper_fix_of_nonword (by simpa using h))

lemma charOK_ws {a b : Char} (h : charOK a b) : isJsWs b = isJsWs a := by
  rcases h with rfl | ⟨_, rfl⟩
  · rfl
  · exact jsToUpper_ws a

lemma charOK_punct {a b : Char} (h : charOK a b) : isPunct b = isPunct a := by
  rcases h with rfl | ⟨_, rfl⟩
  · rfl
  · exact isPunct_toUpper a

lemma charOK_mem3 {a b : Char} (h : charOK a b)
    (ha : a = ' ' ∨ a = '.' ∨ a = ',') : b = ' ' ∨ b = '.' ∨ b = ',' := by
  rcases h with rfl | ⟨hw, rfl⟩
  · exact ha
  · rcases ha with rfl | rfl | rfl <;> exact absurd hw (by decide)

lemma charOK_beq {c0 : Char} (h0 : isWordChar c0 = false) {a b : Char}
    (h : charOK a b) : (b == c0) = (a == c0) := by
  rcases h with rfl | ⟨hw, rfl⟩
  · rfl
  · have ha : (a == c0) = false := by
      cases hac : a == c0 with
      | false => rfl
      | true =>
        rw [show a = c0 from by simpa using hac] at hw
        rw [hw] at h0
        exact absurd h0 (by simp)
    have hb : (jsToUpper a == c0) = false := by
      cases hbc : jsToUpper a == c0 with
      | false => rfl
      | true =>
        have : isWordChar c0 = true := by
          rw [← show jsToUpper a = c0 from by simpa using hbc,
            isWordChar_toUpper]
          exact hw
        rw [this] at h0
        exact absurd h0 (by simp)
    rw [ha, hb]

lemma forall2_refl_charOK (l : List Char) : List.Forall₂ charOK l l := by
  induction l with
  | nil => exact List.Forall₂.nil
  | cons c cs ih => exact List.Forall₂.cons (charOK_rfl c) ih

lemma forall2_upperAfter (l : List Char) : ∀ st : ℕ,
    List.Forall₂ charOK l (upperAfter l st) := by
  induction l with
  | nil => intro st; exact List.Forall₂.nil
  | cons c cs ih =>
    intro st
    by_cases h1 : isTerm c = true
    · rw [upperAfter, if_pos h1]; exact List.Forall₂.cons (charOK_rfl c) (ih 1)
    · by_cases h2 : isJsWs c = true
      · rw [upperAfter, if_neg h1, if_pos h2]
        exact List.Forall₂.cons (charOK_rfl c) (ih _)
      · by_cases h3 : isWordChar c = true
        · rw [upperAfter, if_neg h1, if_neg h2, if_pos h3]
          by_cases h4 : st = 2
          · rw [if_pos h4]; exact List.Forall₂.cons (charOK_up c) (ih 0)
          · rw [if_neg h4]; exact List.Forall₂.cons (charOK_rfl c) (ih 0)
        · rw [upperAfter, if_neg h1, if_neg h2, if_neg h3]
          exact List.Forall₂.cons (charOK_rfl c) (ih 0)

lemma forall2_jsCapFirst (l : List Char) :
    List.Forall₂ charOK l (jsCapFirst l) := by
  cases l with
  | nil => exact List.Forall₂.nil
  | cons c cs =>
    rw [jsCapFirst]
    exact List.Forall₂.cons (charOK_up c) (forall2_refl_charOK cs)

lemma chain'_punctFollow_forall2 : ∀ {l l' : List Char},
    List.Forall₂ charOK l l' → List.Chain' punctFollow l →
      List.Chain' punctFollow l' := by
  intro l l' hf
  induction hf with
  | nil => intro _; exact List.chain'_nil
  | cons ha hf ih =>
    intro h
    rename_i a b l₁ l₂
    obtain ⟨hpair, htail⟩ := List.chain'_cons'.mp h
    refine List.chain'_cons'.mpr ⟨?_, ih htail⟩
    intro y hy
    intro hpb
    cases hf with
    | nil => simp at hy
    | cons ha2 hf2 =>
      rename_i a2 b2 l₃ l₄
      simp only [List.head?_cons, Option.mem_def, Option.some.injEq] at hy
      subst hy
      have hpa : isPunct a = true := by rw [← charOK_punct ha]; exact hpb
      exact charOK_mem3 ha2 (hpair a2 rfl hpa)

lemma chain'_wsNotBefore_forall2 (target : Char → Bool)
    (htg : ∀ a b, charOK a b → target b = target a) : ∀ {l l' : List Char},
    List.Forall₂ charOK l l' → List.Chain' (wsNotBefore target) l →
      List.Chain' (wsNotBefore target) l' := by
  intro l l' hf
  induction hf with
  | nil => intro _; exact List.chain'_nil
  | cons ha hf ih =>
    intro h
    rename_i a b l₁ l₂
    obtain ⟨hpair, htail⟩ := List.chain'_cons'.mp h
    refine List.chain'_cons'.mpr ⟨?_, ih htail⟩
    intro y hy
    intro hwb
    cases hf with
    | nil => simp at hy
    | cons ha2 hf2 =>
      rename_i a2 b2 l₃ l₄
      simp only [List.head?_cons, Option.mem_def, Option.some.injEq] at hy
      subst hy
      have hwa : isJsWs a = true := by rw [← charOK_ws ha]; exact hwb
      rw [htg a2 b2 ha2]
      exact hpair a2 rfl hwa

lemma wsPunctOK_forall2 : ∀ {l l' : List Char}, List.Forall₂ charOK l l' →
    ∀ b : Bool, wsPunctOK b l → wsPunctOK b l' := by
  intro l l' hf
  induction hf with
  | nil => intro b _; trivial
  | cons ha hf ih =>
    intro b h
    rename_i a a' l₁ l₂
    obtain ⟨h1, h2⟩ := h
    refine ⟨?_, ?_⟩
    · intro hws d hd hp
      cases hf with
      | nil => simp at hd
      | cons hb2 hf2 =>
        rename_i b2 b2' l₃ l₄
        simp only [List.head?_cons, Option.some.injEq] at hd
        subst hd
        exact h1 (by rw [← charOK_ws ha]; exact hws) b2 rfl
          (by rw [← charOK_punct hb2]; exact hp)
    · rw [charOK_punct ha]
      exact ih (isPunct a) h2

/-! ### Idempotence of `finalPolish` (C4): chains through `stripWsBefore` -/

lemma stripWsBefore_head_eq (target : Char → Bool) {l : List Char}
    (h : ∀ d, l.head? = some d → isJsWs d = false) :
    (stripWsBefore target l).head? = l.head? := by
  cases l with
  | nil => rfl
  | cons c cs => rw [stripWsBefore_cons_nonws target cs (h c rfl)]; rfl

lemma stripWsBefore_wsNotBefore (target : Char → Bool) :
    ∀ {l : List Char}, chainWs l →
      List.Chain' (wsNotBefore target) (stripWsBefore target l) := by
  intro l hc
  induction l with
  | nil => exact List.chain'_nil
  | cons c cs ih =>
    obtain ⟨hpair, hcs⟩ := List.chain'_cons'.mp hc
    by_cases hdel : isJsWs c = true ∧ (cs.dropWhile isJsWs).head?.elim false target = true
    · rw [stripWsBefore, if_pos (by simpa using hdel)]
      exact ih hcs
    · rw [stripWsBefore, if_neg (by simpa using hdel)]
      refine List.chain'_cons'.mpr ⟨?_, ih hcs⟩
      intro y hy
      intro hws
      have hdw : cs.dropWhile isJsWs = cs := by
        cases cs with
        | nil => rfl
        | cons d ds =>
          have hd : isJsWs d = false := by
            cases hdws : isJsWs d with
            | false => rfl
            | true => exact absurd ⟨hws, hdws⟩ (hpair d rfl)
          simp [List.dropWhile_cons, hd]
      have hne : cs.head?.elim false target = false := by
        cases he : cs.head?.elim false target with
        | false => rfl
        | true => exact absurd ⟨hws, by rw [hdw]; exact he⟩ hdel
      cases cs with
      | nil => simp [stripWsBefore] at hy
      | cons d ds =>
        have hd : isJsWs d = false := by
          cases hdws : isJsWs d with
          | false => rfl
          | true => exact absurd ⟨hws, hdws⟩ (hpair d rfl)
        rw [stripWsBefore_head_eq target (fun e he => by
          simp only [List.head?_cons, Option.some.injEq] at he; subst he; exact hd)] at hy
        simp only [List.head?_cons, Option.mem_def, Option.some.injEq] at hy
        subst hy
        simpa using hne

lemma stripWsBefore_chain_pres {S : Char → Char → Prop} (target : Char → Bool)
    (hclose : ∀ a b, isJsWs a = false → target b = true → S a b) :
    ∀ {l : List Char}, chainWs l → List.Chain' S l →
      List.Chain' S (stripWsBefore target l) := by
  intro l hcw hS
  induction l with
  | nil => exact List.chain'_nil
  | cons c cs ih =>
    obtain ⟨hwp, hcw2⟩ := List.chain'_cons'.mp hcw
    obtain ⟨hSp, hS2⟩ := List.chain'_cons'.mp hS
    by_cases hdel : isJsWs c = true ∧ (cs.dropWhile isJsWs).head?.elim false target = true
    · rw [stripWsBefore, if_pos (by simpa using hdel)]
      exact ih hcw2 hS2
    · rw [stripWsBefore, if_neg (by simpa using hdel)]
      refine List.chain'_cons'.mpr ⟨?_, ih hcw2 hS2⟩
      intro y hy
      cases cs with
      | nil => simp [stripWsBefore] at hy
      | cons d ds =>
        by_cases hddel : isJsWs d = true ∧ (ds.dropWhile isJsWs).head?.elim false target = true
        · -- the next character is deleted: the one after the run is the target
          have hcnws : isJsWs c = false := by
            cases hcws : isJsWs c with
            | false => rfl
            | true => exact absurd ⟨hcws, hddel.1⟩ (hwp d rfl)
          obtain ⟨hdws, hlook⟩ := hddel
          have hdsd : ds.dropWhile isJsWs = ds := by
            obtain ⟨hwp2, _⟩ := List.chain'_cons'.mp hcw2
            cases ds with
            | nil => rfl
            | cons e es =>
              have he : isJsWs e = false := by
                cases hews : isJsWs e with
                | false => rfl
                | true => exact absurd ⟨hdws, hews⟩ (hwp2 e rfl)
              simp [List.dropWhile_cons, he]
          rw [hdsd] at hlook
          cases ds with
          | nil => simp at hlook
          | cons e es =>
            simp only [List.head?_cons, Option.elim] at hlook
            rw [stripWsBefore, if_pos (And.intro hdws (by
              rw [hdsd]; simpa using hlook))] at hy
            have he : isJsWs e = false := by
              obtain ⟨hwp2, _⟩ := List.chain'_cons'.mp hcw2
              cases hews : isJsWs e with
              | false => rfl
              | true => exact absurd ⟨hdws, hews⟩ (hwp2 e rfl)
            rw [stripWsBefore_head_eq target (fun f hf => by
              simp only [List.head?_cons, Option.some.injEq] at hf; subst hf; exact he)] at hy
            simp only [List.head?_cons, Option.mem_def, Option.some.injEq] at hy
            subst hy
            exact hclose c e hcnws hlook
        · rw [stripWsBefore, if_neg (by simpa using hddel)] at hy
          simp only [List.head?_cons, Option.mem_def, Option.some.injEq] at hy
          subst hy
          exact hSp d rfl


/-! ### Idempotence of `finalPolish` (C4): the whitespace-before-punctuation flag -/

lemma wsPunctOK_mono : ∀ {l : List Char} {b : Bool}, wsPunctOK b l →
    wsPunctOK true l := by
  intro l b h
  cases l with
  | nil => trivial
  | cons c cs => exact ⟨fun _ _ _ _ => rfl, h.2⟩

lemma wsPunctOK_flag {c : Char} {cs : List Char} (h : isJsWs c = false) {b b' : Bool}
    (hw : wsPunctOK b (c :: cs)) : wsPunctOK b' (c :: cs) :=
  ⟨fun hws => absurd hws (by simp [h]), hw.2⟩

lemma wsPunctOK_prefix : ∀ (a r : List Char) {b : Bool},
    wsPunctOK b (a ++ r) → wsPunctOK b a := by
  intro a
  induction a with
  | nil => intro r b _; trivial
  | cons c a2 ih =>
    intro r b h
    refine ⟨?_, ih r h.2⟩
    intro hws d hd hp
    refine h.1 hws d ?_ hp
    cases a2 with
    | nil => simp at hd
    | cons e es => simpa using hd

lemma wsPunctOK_dropWhile : ∀ {l : List Char} {b : Bool}, wsPunctOK b l →
    wsPunctOK false (l.dropWhile isJsWs) := by
  intro l
  induction l with
  | nil => intro b _; trivial
  | cons c cs ih =>
    intro b h
    by_cases hws : isJsWs c = true
    · rw [List.dropWhile_cons, if_pos hws]
      exact ih h.2
    · rw [List.dropWhile_cons, if_neg hws]
      exact wsPunctOK_flag (by simpa using hws) h

lemma back_strip_decomp (x : List Char) :
    x = (x.reverse.dropWhile isJsWs).reverse ++ (x.reverse.takeWhile isJsWs).reverse := by
  conv_lhs => rw [← x.reverse_reverse]
  rw [← List.reverse_append, List.takeWhile_append_dropWhile]

/-! ### Idempotence of `finalPolish` (C4): what `punctSpace` guarantees -/

lemma punctSpace_punct_space : ∀ (l : List Char) (st : Bool),
    List.Chain' (fun a b => isPunct a = true → b = ' ') (punctSpace l st) := by
  intro l
  induction l with
  | nil => intro st; exact List.chain'_nil
  | cons c cs ih =>
    intro st
    rw [punctSpace]
    split_ifs with h1 h2
    · refine List.chain'_cons'.mpr ⟨?_, List.chain'_cons'.mpr ⟨?_, ih true⟩⟩
      · intro y hy _
        simpa using hy.symm
      · intro y _ hsp
        exact absurd hsp (by decide)
    · exact ih true
    · refine List.chain'_cons'.mpr ⟨?_, ih false⟩
      intro y _ hp
      exact absurd hp (by simpa using h1)

lemma wsPunctOK_punctSpace : ∀ (l : List Char) (st : Bool) (bprev : Bool),
    chainWs l → List.Chain' (wsNotBefore isPunct) l →
    wsPunctOK bprev (punctSpace l st) := by
  intro l
  induction l with
  | nil => intro st bprev _ _; trivial
  | cons c cs ih =>
    intro st bprev hcw hnb
    obtain ⟨hwp, hcw2⟩ := List.chain'_cons'.mp hcw
    obtain ⟨hnbp, hnb2⟩ := List.chain'_cons'.mp hnb
    rw [punctSpace]
    split_ifs with h1 h2
    · refine ⟨?_, ?_, ?_⟩
      · intro hws
        rw [punct_not_ws h1] at hws
        exact absurd hws (by simp)
      · intro _ d _ _
        exact h1
      · exact ih true (isPunct ' ') hcw2 hnb2
    · exact ih true bprev hcw2 hnb2
    · refine ⟨?_, ih false (isPunct c) hcw2 hnb2⟩
      intro hws d hd hp
      cases cs with
      | nil => simp [punctSpace] at hd
      | cons e es =>
        rw [punctSpace_head_false e es] at hd
        simp only [Option.some.injEq] at hd
        subst hd
        rw [hnbp e rfl hws] at hp
        exact absurd hp (by simp)

/-! ### Idempotence of `finalPolish` (C4): the flag survives `stripWsBefore` -/

lemma wsPunctOK_strip (target : Char → Bool) :
    ∀ {l : List Char} {b : Bool}, chainWs l → wsPunctOK b l →
      wsPunctOK b (stripWsBefore target l) := by
  intro l
  induction l with
  | nil => intro b _ _; trivial
  | cons c cs ih =>
    intro b hcw h
    obtain ⟨hwp, hcw2⟩ := List.chain'_cons'.mp hcw
    by_cases hdel : isJsWs c = true ∧ (cs.dropWhile isJsWs).head?.elim false target = true
    · rw [stripWsBefore, if_pos (by simpa using hdel)]
      have hx : wsPunctOK false (stripWsBefore target cs) := by
        rw [← ws_not_punct hdel.1]
        exact ih hcw2 h.2
      cases b with
      | false => exact hx
      | true => exact wsPunctOK_mono hx
    · rw [stripWsBefore, if_neg (by simpa using hdel)]
      refine ⟨?_, ih hcw2 h.2⟩
      intro hws d hd hp
      cases cs with
      | nil => simp [stripWsBefore] at hd
      | cons e es =>
        have he : isJsWs e = false := by
          cases hews : isJsWs e with
          | false => rfl
          | true => exact absurd ⟨hws, hews⟩ (hwp e rfl)
        rw [stripWsBefore_head_eq target (fun f hf => by
          simp only [List.head?_cons, Option.some.injEq] at hf; subst hf; exact he)] at hd
        exact h.1 hws d hd hp

/-! ### Idempotence of `finalPolish` (C4): the pipeline in simplified form -/

lemma collapseRuns_punctSpace_id (tc : Char) (htc : isPunct tc = true)
    {x : List Char}
    (hx : List.Chain' (fun a b => isPunct a = true → b = ' ') x) :
    collapseRuns tc x = x :=
  collapseRuns_id (hx.imp (fun a b h ha => by
    rw [ha] at h
    rw [h htc]
    exact Ne.symm (punct_ne_space htc)))

lemma finalPolishL_eq_simple (t : List Char) :
    finalPolishL t = jsTrim
      (stripWsBefore (fun c => c == '.')
        (stripWsBefore (fun c => c == ',')
          (jsCapFirst
            (upperAfter
              (punctSpace (stripWsBefore isPunct (collapseWs t)) false) 0)))) := by
  have hpf := punctSpace_punct_space (stripWsBefore isPunct (collapseWs t)) false
  have h3 := collapseRuns_punctSpace_id '.' (by decide) hpf
  rw [finalPolishL, h3]
  have h4 := collapseRuns_punctSpace_id '?' (by decide) hpf
  rw [h4]
  have h5 := collapseRuns_punctSpace_id '!' (by decide) hpf
  rw [h5]
  have m0 := memWs_collapseWs t
  have c0 := chainWs_collapseWs t
  have m1 := memWs_stripWsBefore isPunct m0
  have c1 := chainWs_stripWsBefore isPunct c0
  have m2 := memWs_punctSpace false m1
  have c2 := chainWs_punctSpace false c1
  have m6 := memWs_upperAfter 0 m2
  have c6 := chainWs_upperAfter 0 c2
  have m7 := memWs_jsCapFirst m6
  have c7 := chainWs_jsCapFirst c6
  rw [dashSpace_id m7 c7]


/-! ### Idempotence of `finalPolish` (C4): stability under `upperAfter` -/

lemma ws_not_term {c : Char} (h : isJsWs c = true) : isTerm c = false := by
  cases ht : isTerm c with
  | false => rfl
  | true => rw [term_not_ws ht] at h; exact absurd h (by simp)

lemma upperAfter_cons_term {c : Char} (cs : List Char) (st : ℕ)
    (h : isTerm c = true) :
    upperAfter (c :: cs) st = c :: upperAfter cs 1 := by
  rw [upperAfter, if_pos h]

lemma upperAfter_cons_ws {c : Char} (cs : List Char) (st : ℕ)
    (h : isJsWs c = true) :
    upperAfter (c :: cs) st =
      c :: upperAfter cs (if st = 1 ∨ st = 2 then 2 else 0) := by
  rw [upperAfter, if_neg (by simp [ws_not_term h]), if_pos h]

lemma upperAfter_cons_word {c : Char} (cs : List Char) (st : ℕ)
    (h : isWordChar c = true) :
    upperAfter (c :: cs) st =
      (if st = 2 then jsToUpper c else c) :: upperAfter cs 0 := by
  rw [upperAfter, if_neg (by simp [word_not_term h]),
    if_neg (by simp [word_not_ws h]), if_pos h]

lemma upperAfter_cons_other {c : Char} (cs : List Char) (st : ℕ)
    (h1 : isTerm c = false) (h2 : isJsWs c = false) (h3 : isWordChar c = false) :
    upperAfter (c :: cs) st = c :: upperAfter cs 0 := by
  rw [upperAfter, if_neg (by simp [h1]), if_neg (by simp [h2]),
    if_neg (by simp [h3])]

lemma upperAfter_head_indep (l : List Char) (s s2 : ℕ)
    (h : ∀ d, l.head? = some d → isJsWs d = false ∧ isWordChar d = false) :
    upperAfter l s = upperAfter l s2 := by
  cases l with
  | nil => rfl
  | cons c cs =>
    obtain ⟨hws, hword⟩ := h c rfl
    by_cases h1 : isTerm c = true
    · rw [upperAfter_cons_term cs s h1, upperAfter_cons_term cs s2 h1]
    · rw [upperAfter_cons_other cs s (by simpa using h1) hws hword,
        upperAfter_cons_other cs s2 (by simpa using h1) hws hword]

lemma upperAfter_word_bridge (c : Char) (cs : List Char) (s s2 : ℕ)
    (hw : isWordChar c = true)
    (hs : s = 2 → jsToUpper c = c) (hs2 : s2 = 2 → jsToUpper c = c) :
    upperAfter (c :: cs) s = upperAfter (c :: cs) s2 := by
  rw [upperAfter_cons_word cs s hw, upperAfter_cons_word cs s2 hw]
  by_cases hc : s = 2
  · by_cases hc2 : s2 = 2
    · rw [if_pos hc, if_pos hc2]
    · rw [if_pos hc, if_neg hc2, hs hc]
  · by_cases hc2 : s2 = 2
    · rw [if_neg hc, if_pos hc2, hs2 hc2]
    · rw [if_neg hc, if_neg hc2]

lemma upperAfter_idem (l : List Char) : ∀ st : ℕ,
    upperAfter (upperAfter l st) st = upperAfter l st := by
  induction l with
  | nil => intro st; rfl
  | cons c cs ih =>
    intro st
    by_cases h1 : isTerm c = true
    · rw [upperAfter_cons_term cs st h1, upperAfter_cons_term (upperAfter cs 1) st h1,
        ih 1]
    · by_cases h2 : isJsWs c = true
      · rw [upperAfter_cons_ws cs st h2, upperAfter_cons_ws (upperAfter cs _) st h2,
          ih _]
      · by_cases h3 : isWordChar c = true
        · rw [upperAfter_cons_word cs st h3]
          by_cases h4 : st = 2
          · rw [if_pos h4,
              upperAfter_cons_word (upperAfter cs 0) st
                (by rw [isWordChar_toUpper]; exact h3),
              if_pos h4, toUpper_idem, ih 0]
          · rw [if_neg h4,
              upperAfter_cons_word (upperAfter cs 0) st h3, if_neg h4, ih 0]
        · rw [upperAfter_cons_other cs st (by simpa using h1) (by simpa using h2)
              (by simpa using h3),
            upperAfter_cons_other (upperAfter cs 0) st (by simpa using h1)
              (by simpa using h2) (by simpa using h3), ih 0]

lemma upperAfter_jsCapFirst {l : List Char} (h : upperAfter l 0 = l) :
    upperAfter (jsCapFirst l) 0 = jsCapFirst l := by
  cases l with
  | nil => rfl
  | cons c cs =>
    rw [jsCapFirst]
    by_cases h1 : isTerm c = true
    · rw [upperAfter_cons_term cs 0 h1] at h
      simp only [List.cons.injEq, true_and] at h
      rw [upperAfter_cons_term cs 0 (by rw [isTerm_toUpper]; exact h1), h]
    · by_cases h2 : isJsWs c = true
      · rw [upperAfter_cons_ws cs 0 h2] at h
        simp only [List.cons.injEq, true_and] at h
        rw [upperAfter_cons_ws cs 0 (by rw [jsToUpper_ws]; exact h2), h]
      · by_cases h3 : isWordChar c = true
        · rw [upperAfter_cons_word cs 0 h3,
            if_neg (by omega : ¬ (0 : ℕ) = 2)] at h
          simp only [List.cons.injEq, true_and] at h
          rw [upperAfter_cons_word cs 0 (by rw [isWordChar_toUpper]; exact h3),
            if_neg (by omega : ¬ (0 : ℕ) = 2), h]
        · rw [upperAfter_cons_other cs 0 (by simpa using h1) (by simpa using h2)
            (by simpa using h3)] at h
          simp only [List.cons.injEq, true_and] at h
          rw [upperAfter_cons_other cs 0 (by rw [isTerm_toUpper]; simpa using h1)
            (by rw [jsToUpper_ws]; simpa using h2)
            (by rw [isWordChar_toUpper]; simpa using h3), h]

lemma upperAfter_strip (target : Char → Bool)
    (ht : ∀ c, target c = true → isJsWs c = false ∧ isWordChar c = false) :
    ∀ {l : List Char} (st : ℕ), chainWs l → upperAfter l st = l →
      upperAfter (stripWsBefore target l) st = stripWsBefore target l := by
  intro l
  induction l with
  | nil => intro st _ _; rfl
  | cons c cs ih =>
    intro st hcw h
    obtain ⟨hwp, hcw2⟩ := List.chain'_cons'.mp hcw
    by_cases hdel : isJsWs c = true ∧ (cs.dropWhile isJsWs).head?.elim false target = true
    · rw [stripWsBefore, if_pos (by simpa using hdel)]
      obtain ⟨hcws, hlook⟩ := hdel
      rw [upperAfter_cons_ws cs st hcws] at h
      simp only [List.cons.injEq, true_and] at h
      have hx := ih _ hcw2 h
      cases cs with
      | nil => simp at hlook
      | cons d ds =>
        have hd : isJsWs d = false := by
          cases hdws : isJsWs d with
          | false => rfl
          | true => exact absurd ⟨hcws, hdws⟩ (hwp d rfl)
        rw [List.dropWhile_cons, if_neg (by simp [hd])] at hlook
        simp only [List.head?_cons, Option.elim] at hlook
        rw [stripWsBefore_cons_nonws target ds hd] at hx ⊢
        obtain ⟨hdws2, hdword⟩ := ht d hlook
        rw [upperAfter_head_indep (d :: stripWsBefore target ds) st _
          (fun e he => by
            simp only [List.head?_cons, Option.some.injEq] at he
            subst he
            exact ⟨hdws2, hdword⟩)]
        exact hx
    · rw [stripWsBefore, if_neg (by simpa using hdel)]
      by_cases h1 : isTerm c = true
      · rw [upperAfter_cons_term cs st h1] at h
        simp only [List.cons.injEq, true_and] at h
        rw [upperAfter_cons_term _ st h1, ih 1 hcw2 h]
      · by_cases h2 : isJsWs c = true
        · rw [upperAfter_cons_ws cs st h2] at h
          simp only [List.cons.injEq, true_and] at h
          rw [upperAfter_cons_ws _ st h2, ih _ hcw2 h]
        · by_cases h3 : isWordChar c = true
          · rw [upperAfter_cons_word cs st h3] at h
            simp only [List.cons.injEq] at h
            rw [upperAfter_cons_word _ st h3, h.1, ih 0 hcw2 h.2]
          · rw [upperAfter_cons_other cs st (by simpa using h1) (by simpa using h2)
              (by simpa using h3)] at h
            simp only [List.cons.injEq, true_and] at h
            rw [upperAfter_cons_other _ st (by simpa using h1) (by simpa using h2)
              (by simpa using h3), ih 0 hcw2 h]

lemma upperAfter_ws_prefix : ∀ (w : List Char), (∀ c ∈ w, isJsWs c = true) →
    ∀ r : List Char, upperAfter (w ++ r) 0 = w ++ upperAfter r 0 := by
  intro w
  induction w with
  | nil => intro _ r; rfl
  | cons c w2 ih =>
    intro hmem r
    have hcws : isJsWs c = true := hmem c (List.mem_cons_self c _)
    rw [List.cons_append, upperAfter_cons_ws _ 0 hcws]
    rw [show (if (0:ℕ) = 1 ∨ (0:ℕ) = 2 then 2 else 0) = 0 from by decide]
    rw [ih (fun d hd => hmem d (List.mem_cons_of_mem c hd)) r]
    rfl

lemma upperAfter_prefix_stable : ∀ (a r : List Char) (st : ℕ),
    upperAfter (a ++ r) st = a ++ r → upperAfter a st = a := by
  intro a
  induction a with
  | nil => intro r st _; rfl
  | cons c a2 ih =>
    intro r st h
    rw [List.cons_append] at h
    by_cases h1 : isTerm c = true
    · rw [upperAfter_cons_term _ st h1] at h
      simp only [List.cons.injEq, true_and] at h
      rw [upperAfter_cons_term a2 st h1, ih r 1 h]
    · by_cases h2 : isJsWs c = true
      · rw [upperAfter_cons_ws _ st h2] at h
        simp only [List.cons.injEq, true_and] at h
        rw [upperAfter_cons_ws a2 st h2, ih r _ h]
      · by_cases h3 : isWordChar c = true
        · rw [upperAfter_cons_word _ st h3] at h
          simp only [List.cons.injEq] at h
          rw [upperAfter_cons_word a2 st h3, h.1, ih r 0 h.2]
        · rw [upperAfter_cons_other _ st (by simpa using h1) (by simpa using h2)
            (by simpa using h3)] at h
          simp only [List.cons.injEq, true_and] at h
          rw [upperAfter_cons_other a2 st (by simpa using h1) (by simpa using h2)
            (by simpa using h3), ih r 0 h]


/-! ### Idempotence of `finalPolish` (C4): the space normalizer `spacedF` -/

lemma spacedF_cons_punct {c : Char} (cs : List Char) (b : Bool)
    (h : isPunct c = true) :
    spacedF b (c :: cs) = c :: ' ' :: spacedF true cs := by
  rw [spacedF, if_pos h]

lemma spacedF_cons_absorb {c : Char} (cs : List Char)
    (hp : isPunct c = false) (hws : isJsWs c = true) :
    spacedF true (c :: cs) = spacedF true cs := by
  rw [spacedF, if_neg (by simp [hp]), if_pos ⟨rfl, hws⟩]

lemma spacedF_cons_keep {c : Char} (cs : List Char) {b : Bool}
    (hp : isPunct c = false) (hk : ¬ (b = true ∧ isJsWs c = true)) :
    spacedF b (c :: cs) = c :: spacedF false cs := by
  rw [spacedF, if_neg (by simp [hp]), if_neg hk]

lemma spacedF_true_head_not_ws : ∀ (l : List Char) (d : Char),
    (spacedF true l).head? = some d → isJsWs d = false := by
  intro l
  induction l with
  | nil => intro d hd; simp [spacedF] at hd
  | cons c cs ih =>
    intro d hd
    by_cases hp : isPunct c = true
    · rw [spacedF_cons_punct cs true hp] at hd
      simp only [List.head?_cons, Option.some.injEq] at hd
      subst hd
      exact punct_not_ws hp
    · by_cases hws : isJsWs c = true
      · rw [spacedF_cons_absorb cs (by simpa using hp) hws] at hd
        exact ih d hd
      · rw [spacedF_cons_keep cs (by simpa using hp)
          (by simp [hws])] at hd
        simp only [List.head?_cons, Option.some.injEq] at hd
        subst hd
        simpa using hws

lemma spacedF_head_nonws {l : List Char} (b : Bool)
    (h : ∀ d, l.head? = some d → isJsWs d = false) :
    (spacedF b l).head? = l.head? := by
  cases l with
  | nil => rfl
  | cons c cs =>
    by_cases hp : isPunct c = true
    · rw [spacedF_cons_punct cs b hp]; rfl
    · rw [spacedF_cons_keep cs (by simpa using hp)
        (by simp [h c rfl])]; rfl

lemma memWs_spacedF {l : List Char} (h : memWs l) : ∀ b, memWs (spacedF b l) := by
  induction l with
  | nil => intro b c hc; simp [spacedF] at hc
  | cons c cs ih =>
    intro b d hd hdws
    have hcs : memWs cs := fun e he => h e (List.mem_cons_of_mem c he)
    by_cases hp : isPunct c = true
    · rw [spacedF_cons_punct cs b hp] at hd
      rcases List.mem_cons.mp hd with rfl | hd2
      · exact h d (List.mem_cons_self d _) hdws
      · rcases List.mem_cons.mp hd2 with rfl | hd3
        · rfl
        · exact ih hcs true d hd3 hdws
    · by_cases hws : isJsWs c = true
      · cases b with
        | true =>
          rw [spacedF_cons_absorb cs (by simpa using hp) hws] at hd
          exact ih hcs true d hd hdws
        | false =>
          rw [spacedF_cons_keep cs (by simpa using hp) (by simp)] at hd
          rcases List.mem_cons.mp hd with rfl | hd2
          · exact h d (List.mem_cons_self d _) hdws
          · exact ih hcs false d hd2 hdws
      · rw [spacedF_cons_keep cs (by simpa using hp) (by simp [hws])] at hd
        rcases List.mem_cons.mp hd with rfl | hd2
        · exact h d (List.mem_cons_self d _) hdws
        · exact ih hcs false d hd2 hdws

lemma chainWs_spacedF : ∀ {l : List Char}, chainWs l → ∀ b,
    chainWs (spacedF b l) := by
  intro l
  induction l with
  | nil => intro _ b; exact List.chain'_nil
  | cons c cs ih =>
    intro hc b
    obtain ⟨hpair, hcs⟩ := List.chain'_cons'.mp hc
    by_cases hp : isPunct c = true
    · rw [spacedF_cons_punct cs b hp]
      refine List.chain'_cons'.mpr ⟨?_, List.chain'_cons'.mpr ⟨?_, ih hcs true⟩⟩
      · intro y hy
        intro ⟨hx, _⟩
        rw [punct_not_ws hp] at hx
        exact absurd hx (by simp)
      · intro y hy
        intro ⟨_, hx⟩
        rw [spacedF_true_head_not_ws cs y hy] at hx
        exact absurd hx (by simp)
    · by_cases hws : isJsWs c = true
      · cases b with
        | true =>
          rw [spacedF_cons_absorb cs (by simpa using hp) hws]
          exact ih hcs true
        | false =>
          rw [spacedF_cons_keep cs (by simpa using hp) (by simp)]
          refine List.chain'_cons'.mpr ⟨?_, ih hcs false⟩
          intro y hy
          cases cs with
          | nil => simp [spacedF] at hy
          | cons e es =>
            have he : isJsWs e = false := by
              cases hews : isJsWs e with
              | false => rfl
              | true => exact absurd ⟨hws, hews⟩ (hpair e rfl)
            rw [spacedF_head_nonws false (fun f hf => by
              simp only [List.head?_cons, Option.some.injEq] at hf
              subst hf; exact he)] at hy
            simp only [List.head?_cons, Option.mem_def, Option.some.injEq] at hy
            subst hy
            intro ⟨_, hx⟩
            exact absurd hx (by simp [he])
      · rw [spacedF_cons_keep cs (by simpa using hp) (by simp [hws])]
        refine List.chain'_cons'.mpr ⟨?_, ih hcs false⟩
        intro y _
        intro ⟨hx, _⟩
        exact absurd hx (by simp [hws])

/-! ### Idempotence of `finalPolish` (C4): `punctSpace` after the strip is
exactly the space normalizer -/

lemma punctSpace_strip_eq_spacedF : ∀ (l : List Char) (b : Bool), chainWs l →
    wsPunctOK b l →
    punctSpace (stripWsBefore isPunct l) b = spacedF b l := by
  intro l
  induction l with
  | nil => intro b _ _; rfl
  | cons c cs ih =>
    intro b hcw h
    obtain ⟨hpair, hcw2⟩ := List.chain'_cons'.mp hcw
    by_cases hp : isPunct c = true
    · rw [stripWsBefore_cons_nonws isPunct cs (punct_not_ws hp),
        punctSpace, if_pos hp, spacedF_cons_punct cs b hp]
      have h2 : wsPunctOK true cs := by rw [← hp]; exact h.2
      rw [ih true hcw2 h2]
    · by_cases hws : isJsWs c = true
      · have hdw : cs.dropWhile isJsWs = cs := by
          cases cs with
          | nil => rfl
          | cons e es =>
            have he : isJsWs e = false := by
              cases hews : isJsWs e with
              | false => rfl
              | true => exact absurd ⟨hws, hews⟩ (hpair e rfl)
            simp [List.dropWhile_cons, he]
        have hfalse : wsPunctOK false cs := by
          rw [← show isPunct c = false from by simpa using hp]
          exact h.2
        cases b with
        | true =>
          rw [spacedF_cons_absorb cs (by simpa using hp) hws]
          by_cases hdel : (cs.dropWhile isJsWs).head?.elim false isPunct = true
          · rw [stripWsBefore, if_pos ⟨hws, hdel⟩]
            exact ih true hcw2 (wsPunctOK_mono hfalse)
          · rw [stripWsBefore, if_neg (by simp [hdel])]
            rw [punctSpace, if_neg (by simpa using hp), if_pos ⟨rfl, hws⟩]
            exact ih true hcw2 (wsPunctOK_mono hfalse)
        | false =>
          rw [spacedF_cons_keep cs (by simpa using hp) (by simp)]
          have hdel : (cs.dropWhile isJsWs).head?.elim false isPunct = false := by
            rw [hdw]
            cases cs with
            | nil => rfl
            | cons e es =>
              simp only [List.head?_cons, Option.elim]
              cases hpe : isPunct e with
              | false => rfl
              | true => exact absurd (h.1 hws e rfl hpe) (by simp)
          rw [stripWsBefore, if_neg (by simp [hdel])]
          rw [punctSpace, if_neg (by simpa using hp), if_neg (by simp [hws])]
          rw [ih false hcw2 hfalse]
      · rw [stripWsBefore_cons_nonws isPunct cs (by simpa using hws),
          spacedF_cons_keep cs (by simpa using hp) (by simp [hws]),
          punctSpace, if_neg (by simpa using hp), if_neg (by simp [hws])]
        have hfalse : wsPunctOK false cs := by
          rw [← show isPunct c = false from by simpa using hp]
          exact h.2
        rw [ih false hcw2 hfalse]


/-! ### Idempotence of `finalPolish` (C4): equations for `dropB`, `tailSp`,
and `stripWsBefore` -/

lemma dropB_false (l : List Char) : dropB false l = l := by
  cases l <;> rfl

lemma dropB_nil (b : Bool) : dropB b [] = [] := by
  cases b <;> rfl

lemma dropB_true_cons (c : Char) (r : List Char) :
    dropB true (c :: r) = if c = ' ' then r else c :: r := rfl

lemma dropB_cons_ne {c : Char} (hc : c ≠ ' ') (r : List Char) (b : Bool) :
    dropB b (c :: r) = c :: r := by
  cases b with
  | false => rfl
  | true => rw [dropB_true_cons, if_neg hc]

lemma nonws_ne_space {c : Char} (h : isJsWs c = false) : c ≠ ' ' := by
  intro he
  subst he
  exact absurd h (by decide)

lemma tailSp_cons_ne {a : Char} {cs : List Char} (h : cs ≠ []) :
    tailSp (a :: cs) = tailSp cs := by
  cases cs with
  | nil => exact absurd rfl h
  | cons c cs2 => rfl

lemma stripWsBefore_cons_ws_keep (tg : Char → Bool) {c : Char} (R : List Char)
    (hlook : (R.dropWhile isJsWs).head?.elim false tg = false) :
    stripWsBefore tg (c :: R) = c :: stripWsBefore tg R := by
  rw [stripWsBefore, if_neg (by simp [hlook])]

lemma stripWsBefore_cons_ws_del (tg : Char → Bool) {c : Char} (R : List Char)
    (h : isJsWs c = true)
    (hlook : (R.dropWhile isJsWs).head?.elim false tg = true) :
    stripWsBefore tg (c :: R) = stripWsBefore tg R := by
  rw [stripWsBefore, if_pos ⟨h, hlook⟩]

lemma lookahead_of_head (tg : Char → Bool) {R : List Char} {g : Char}
    (hg : R.head? = some g) (hgws : isJsWs g = false) :
    (R.dropWhile isJsWs).head?.elim false tg = tg g := by
  cases R with
  | nil => simp at hg
  | cons g2 gs =>
    simp only [List.head?_cons, Option.some.injEq] at hg
    subst hg
    rw [List.dropWhile_cons, if_neg (by simp [hgws])]
    rfl

/-! ### Idempotence of `finalPolish` (C4): the comma and period strips undo
exactly the spaces the normalizer inserted -/

lemma strips_spacedF : ∀ (n : ℕ) (l : List Char) (b : Bool), l.length ≤ n →
    memWs l → chainWs l → List.Chain' punctFollow l →
    List.Chain' (wsNotBefore (fun c => c == '.')) l →
    List.Chain' (wsNotBefore (fun c => c == ',')) l →
    wsPunctOK b l →
    stripWsBefore (fun c => c == '.')
      (stripWsBefore (fun c => c == ',') (spacedF b l)) =
      dropB b l ++ tailSp l := by
  intro n
  induction n with
  | zero =>
    intro l b hlen _ _ _ _ _ _
    have hnil : l = [] := List.length_eq_zero.mp (Nat.le_zero.mp hlen)
    subst hnil
    rw [dropB_nil]
    rfl
  | succ n ih =>
    intro l b hlen hm hcw hpf hdot hcomma hwp
    cases l with
    | nil => rw [dropB_nil]; rfl
    | cons c cs =>
      obtain ⟨hwpair, hcw2⟩ := List.chain'_cons'.mp hcw
      obtain ⟨hpfp, hpf2⟩ := List.chain'_cons'.mp hpf
      obtain ⟨hdotp, hdot2⟩ := List.chain'_cons'.mp hdot
      obtain ⟨hcommap, hcomma2⟩ := List.chain'_cons'.mp hcomma
      have hm2 : memWs cs := fun e he => hm e (List.mem_cons_of_mem c he)
      have hlen2 : cs.length ≤ n := by simpa using hlen
      by_cases hp : isPunct c = true
      · -- a punctuation head: the normalizer emits `c` and one space
        have hcnws : isJsWs c = false := punct_not_ws hp
        have hcne : c ≠ ' ' := punct_ne_space hp
        rw [spacedF_cons_punct cs b hp]
        cases cs with
        | nil =>
          rw [stripWsBefore_cons_nonws _ _ hcnws,
            stripWsBefore_cons_nonws _ _ hcnws,
            dropB_cons_ne hcne]
          simp [stripWsBefore, tailSp, spacedF, hp]
        | cons d ds =>
          have hwp2 : wsPunctOK true (d :: ds) := by rw [← hp]; exact hwp.2
          rcases hpfp d rfl hp with hd | hd | hd
          · -- the space after `c` was already present
            subst hd
            rw [spacedF_cons_absorb ds (by decide) (by decide)]
            cases ds with
            | nil =>
              rw [stripWsBefore_cons_nonws _ _ hcnws,
                stripWsBefore_cons_nonws _ _ hcnws,
                dropB_cons_ne hcne]
              simp [stripWsBefore, tailSp, spacedF,
                show isPunct ' ' = false from by decide]
            | cons f fs =>
              obtain ⟨hwpair2, hcw3⟩ := List.chain'_cons'.mp hcw2
              obtain ⟨_, hpf3⟩ := List.chain'_cons'.mp hpf2
              obtain ⟨hdotp2, hdot3⟩ := List.chain'_cons'.mp hdot2
              obtain ⟨hcommap2, hcomma3⟩ := List.chain'_cons'.mp hcomma2
              have hf : isJsWs f = false := by
                cases hfws : isJsWs f with
                | false => rfl
                | true => exact absurd ⟨by decide, hfws⟩ (hwpair2 f rfl)
              have hfdot : (f == '.') = false := hdotp2 f rfl (by decide)
              have hfcomma : (f == ',') = false := hcommap2 f rfl (by decide)
              have hRhead : (spacedF true (f :: fs)).head? = some f :=
                spacedF_head_nonws true (fun e he => by
                  simp only [List.head?_cons, Option.some.injEq] at he
                  subst he; exact hf)
              have hwp3 : wsPunctOK true (f :: fs) := wsPunctOK_mono hwp2.2
              have hIH := ih (f :: fs) true
                (by simp only [List.length_cons] at hlen2 ⊢; omega)
                (fun e he => hm2 e (List.mem_cons_of_mem ' ' he)) hcw3 hpf3 hdot3
                hcomma3 hwp3
              have hhead2 : (stripWsBefore (fun c => c == ',')
                  (spacedF true (f :: fs))).head? = some f := by
                rw [stripWsBefore_head_eq _ (fun e he => by
                  rw [hRhead] at he
                  simp only [Option.some.injEq] at he
                  subst he; exact hf)]
                exact hRhead
              rw [stripWsBefore_cons_nonws _ _ hcnws,
                stripWsBefore_cons_ws_keep (fun c => c == ',')
                  (spacedF true (f :: fs))
                  (by rw [lookahead_of_head _ hRhead hf]; exact hfcomma),
                stripWsBefore_cons_nonws _ _ hcnws,
                stripWsBefore_cons_ws_keep (fun c => c == '.')
                  (stripWsBefore (fun c => c == ',') (spacedF true (f :: fs)))
                  (by rw [lookahead_of_head _ hhead2 hf]; exact hfdot),
                hIH, dropB_cons_ne (nonws_ne_space hf),
                dropB_cons_ne hcne, @tailSp_cons_ne c (' ' :: f :: fs) (by simp),
                @tailSp_cons_ne ' ' (f :: fs) (by simp)]
              rfl
          · -- a second period follows directly: the strip removes the space
            subst hd
            have hRhead : (spacedF true ('.' :: ds)).head? = some '.' := by
              rw [spacedF_cons_punct ds true (by decide)]
              rfl
            have hIH := ih ('.' :: ds) true hlen2 hm2 hcw2 hpf2 hdot2 hcomma2 hwp2
            have hhead2 : (stripWsBefore (fun c => c == ',')
                (spacedF true ('.' :: ds))).head? = some '.' := by
              rw [stripWsBefore_head_eq _ (fun e he => by
                rw [hRhead] at he
                simp only [Option.some.injEq] at he
                subst he; decide)]
              exact hRhead
            rw [stripWsBefore_cons_nonws _ _ hcnws,
              stripWsBefore_cons_ws_keep (fun c => c == ',')
                (spacedF true ('.' :: ds))
                (by rw [lookahead_of_head _ hRhead (by decide)]; rfl),
              stripWsBefore_cons_nonws _ _ hcnws,
              stripWsBefore_cons_ws_del (fun c => c == '.')
                (stripWsBefore (fun c => c == ',') (spacedF true ('.' :: ds)))
                (by decide)
                (by rw [lookahead_of_head _ hhead2 (by decide)]; rfl),
              hIH, dropB_cons_ne (by decide),
              dropB_cons_ne hcne, @tailSp_cons_ne c ('.' :: ds) (by simp)]
            rfl
          · -- a comma follows directly: the comma strip removes the space
            subst hd
            have hRhead : (spacedF true (',' :: ds)).head? = some ',' := by
              rw [spacedF_cons_punct ds true (by decide)]
              rfl
            have hIH := ih (',' :: ds) true hlen2 hm2 hcw2 hpf2 hdot2 hcomma2 hwp2
            rw [stripWsBefore_cons_nonws _ _ hcnws,
              stripWsBefore_cons_ws_del (fun c => c == ',')
                (spacedF true (',' :: ds)) (by decide)
                (by rw [lookahead_of_head _ hRhead (by decide)]; rfl),
              stripWsBefore_cons_nonws _ _ hcnws,
              hIH, dropB_cons_ne (by decide),
              dropB_cons_ne hcne, @tailSp_cons_ne c (',' :: ds) (by simp)]
            rfl
      · by_cases hws : isJsWs c = true
        · have hcsp : c = ' ' := hm c (List.mem_cons_self c _) hws
          cases b with
          | true =>
            -- pending absorption: the space disappears on both sides
            rw [spacedF_cons_absorb cs (by simpa using hp) hws,
              show dropB true (c :: cs) = cs from by
                rw [dropB_true_cons, if_pos hcsp]]
            have hwp2 : wsPunctOK true cs := wsPunctOK_mono hwp.2
            cases cs with
            | nil =>
              simp [tailSp, show isPunct c = false from by simpa using hp,
                show spacedF true ([] : List Char) = [] from rfl, stripWsBefore]
            | cons e es =>
              have he : isJsWs e = false := by
                cases hews : isJsWs e with
                | false => rfl
                | true => exact absurd ⟨hws, hews⟩ (hwpair e rfl)
              have hIH := ih (e :: es) true hlen2 hm2 hcw2 hpf2 hdot2 hcomma2 hwp2
              rw [hIH, dropB_cons_ne (nonws_ne_space he),
                @tailSp_cons_ne c (e :: es) (by simp)]
          | false =>
            -- a kept interior space: never before a period, comma, or other
            -- punctuation, so both strips keep it
            rw [spacedF_cons_keep cs (by simpa using hp) (by simp)]
            have hwp2 : wsPunctOK false cs := by
              rw [← show isPunct c = false from by simpa using hp]
              exact hwp.2
            cases cs with
            | nil =>
              rw [stripWsBefore_cons_ws_keep (fun c => c == ',')
                  (spacedF false []) (by rfl),
                stripWsBefore_cons_ws_keep (fun c => c == '.')
                  (stripWsBefore (fun c => c == ',') (spacedF false [])) (by rfl),
                dropB_false]
              simp [tailSp, show isPunct c = false from by simpa using hp,
                show spacedF false ([] : List Char) = [] from rfl, stripWsBefore]
            | cons e es =>
              have he : isJsWs e = false := by
                cases hews : isJsWs e with
                | false => rfl
                | true => exact absurd ⟨hws, hews⟩ (hwpair e rfl)
              have hedot : (e == '.') = false := hdotp e rfl hws
              have hecomma : (e == ',') = false := hcommap e rfl hws
              have hRhead : (spacedF false (e :: es)).head? = some e :=
                spacedF_head_nonws false (fun g hg => by
                  simp only [List.head?_cons, Option.some.injEq] at hg
                  subst hg; exact he)
              have hIH := ih (e :: es) false hlen2 hm2 hcw2 hpf2 hdot2 hcomma2 hwp2
              have hhead2 : (stripWsBefore (fun c => c == ',')
                  (spacedF false (e :: es))).head? = some e := by
                rw [stripWsBefore_head_eq _ (fun g hg => by
                  rw [hRhead] at hg
                  simp only [Option.some.injEq] at hg
                  subst hg; exact he)]
                exact hRhead
              rw [stripWsBefore_cons_ws_keep (fun c => c == ',')
                  (spacedF false (e :: es))
                  (by rw [lookahead_of_head _ hRhead he]; exact hecomma),
                stripWsBefore_cons_ws_keep (fun c => c == '.')
                  (stripWsBefore (fun c => c == ',') (spacedF false (e :: es)))
                  (by rw [lookahead_of_head _ hhead2 he]; exact hedot),
                hIH, dropB_false, dropB_false, @tailSp_cons_ne c (e :: es) (by simp)]
              rfl
        · -- an ordinary character is kept everywhere
          rw [spacedF_cons_keep cs (by simpa using hp) (by simp [hws])]
          have hwp2 : wsPunctOK false cs := by
            rw [← show isPunct c = false from by simpa using hp]
            exact hwp.2
          have hcnws2 : isJsWs c = false := by simpa using hws
          cases cs with
          | nil =>
            rw [stripWsBefore_cons_nonws _ _ hcnws2,
              stripWsBefore_cons_nonws _ _ hcnws2,
              dropB_cons_ne (nonws_ne_space hcnws2)]
            simp [tailSp, show isPunct c = false from by simpa using hp,
              show spacedF false ([] : List Char) = [] from rfl, stripWsBefore]
          | cons e es =>
            have hIH := ih (e :: es) false hlen2 hm2 hcw2 hpf2 hdot2 hcomma2 hwp2
            rw [stripWsBefore_cons_nonws _ _ hcnws2,
              stripWsBefore_cons_nonws _ _ hcnws2,
              hIH, dropB_false, dropB_cons_ne (nonws_ne_space hcnws2),
              @tailSp_cons_ne c (e :: es) (by simp)]
            rfl


/-! ### Idempotence of `finalPolish` (C4): stability survives the space
normalizer -/

lemma upperAfter_spacedF : ∀ (l : List Char) (st : ℕ) (b : Bool), chainWs l →
    List.Chain' punctFollow l → upperAfter l st = l →
    upperAfter (spacedF b l) st = spacedF b l := by
  intro l
  induction l with
  | nil => intro st b _ _ _; rfl
  | cons c cs ih =>
    intro st b hcw hpf h
    obtain ⟨hwpair, hcw2⟩ := List.chain'_cons'.mp hcw
    obtain ⟨hpfp, hpf2⟩ := List.chain'_cons'.mp hpf
    by_cases hp : isPunct c = true
    · -- punctuation: the normalizer inserts a space, and what follows is a
      -- space, a period, a comma, or nothing, none of which `upperAfter`
      -- can change
      rw [spacedF_cons_punct cs b hp]
      have hkey : ∀ s2 : ℕ, (upperAfter cs s2 = cs) →
          upperAfter (spacedF true cs) s2 = spacedF true cs := fun s2 hx =>
        ih s2 true hcw2 hpf2 hx
      by_cases h1 : isTerm c = true
      · rw [upperAfter_cons_term cs st h1] at h
        simp only [List.cons.injEq, true_and] at h
        rw [upperAfter_cons_term (' ' :: spacedF true cs) st h1,
          upperAfter_cons_ws (spacedF true cs) 1 (by decide),
          show (if (1:ℕ) = 1 ∨ (1:ℕ) = 2 then 2 else 0) = 2 from by decide]
        cases cs with
        | nil => rfl
        | cons d ds =>
          rcases hpfp d rfl hp with hd | hd | hd
          · subst hd
            have hds : upperAfter ds 2 = ds := by
              rw [upperAfter_cons_ws ds 1 (by decide),
                show (if (1:ℕ) = 1 ∨ (1:ℕ) = 2 then 2 else 0) = 2 from
                  by decide] at h
              simpa using h
            have h2 : upperAfter (' ' :: ds) 2 = ' ' :: ds := by
              rw [upperAfter_cons_ws ds 2 (by decide),
                show (if (2:ℕ) = 1 ∨ (2:ℕ) = 2 then 2 else 0) = 2 from by decide,
                hds]
            rw [hkey 2 h2]
          · subst hd
            have hhead : (spacedF true ('.' :: ds)).head? = some '.' := by
              rw [spacedF_cons_punct ds true (by decide)]; rfl
            rw [upperAfter_head_indep (spacedF true ('.' :: ds)) 2 1
              (fun e he => by
                rw [hhead] at he
                simp only [Option.some.injEq] at he
                subst he; exact ⟨by decide, by decide⟩),
              hkey 1 h]
          · subst hd
            have hhead : (spacedF true (',' :: ds)).head? = some ',' := by
              rw [spacedF_cons_punct ds true (by decide)]; rfl
            rw [upperAfter_head_indep (spacedF true (',' :: ds)) 2 1
              (fun e he => by
                rw [hhead] at he
                simp only [Option.some.injEq] at he
                subst he; exact ⟨by decide, by decide⟩),
              hkey 1 h]
      · -- a non-terminator punctuation mark resets the state to 0
        have hother : isJsWs c = false := punct_not_ws hp
        have hword : isWordChar c = false := punct_not_word hp
        rw [upperAfter_cons_other cs st (by simpa using h1) hother hword] at h
        simp only [List.cons.injEq, true_and] at h
        rw [upperAfter_cons_other (' ' :: spacedF true cs) st (by simpa using h1)
            hother hword,
          upperAfter_cons_ws (spacedF true cs) 0 (by decide),
          show (if (0:ℕ) = 1 ∨ (0:ℕ) = 2 then 2 else 0) = 0 from by decide,
          hkey 0 h]
    · by_cases hws : isJsWs c = true
      · cases b with
        | true =>
          -- absorbed space: the continuation is processed at the unchanged
          -- state instead of the whitespace-updated one, which cannot matter
          rw [spacedF_cons_absorb cs (by simpa using hp) hws]
          rw [upperAfter_cons_ws cs st hws] at h
          simp only [List.cons.injEq, true_and] at h
          have hcs : upperAfter cs st = cs := by
            cases cs with
            | nil => rfl
            | cons x xs =>
              have hx : isJsWs x = false := by
                cases hxs : isJsWs x with
                | false => rfl
                | true => exact absurd ⟨hws, hxs⟩ (hwpair x rfl)
              by_cases hxw : isWordChar x = true
              · refine (upperAfter_word_bridge x xs st _ hxw ?_ ?_).trans h
                · intro hst2
                  have hst2' : (if st = 1 ∨ st = 2 then 2 else 0) = 2 := by
                    rw [if_pos (Or.inr hst2)]
                  rw [upperAfter_cons_word xs _ hxw, if_pos hst2'] at h
                  simp only [List.cons.injEq] at h
                  exact h.1
                · intro hst2
                  rw [upperAfter_cons_word xs _ hxw, if_pos hst2] at h
                  simp only [List.cons.injEq] at h
                  exact h.1
              · refine (upperAfter_head_indep (x :: xs) st _ (fun e he => by
                  simp only [List.head?_cons, Option.some.injEq] at he
                  subst he
                  exact ⟨hx, by simpa using hxw⟩)).trans h
          exact ih st true hcw2 hpf2 hcs
        | false =>
          rw [spacedF_cons_keep cs (by simpa using hp) (by simp)]
          rw [upperAfter_cons_ws cs st hws] at h
          simp only [List.cons.injEq, true_and] at h
          rw [upperAfter_cons_ws (spacedF false cs) st hws]
          rw [ih _ false hcw2 hpf2 h]
      · rw [spacedF_cons_keep cs (by simpa using hp) (by simp [hws])]
        have hterm : isTerm c = false := by
          cases ht : isTerm c with
          | false => rfl
          | true => rw [term_is_punct ht] at hp; exact absurd rfl hp
        by_cases hword : isWordChar c = true
        · rw [upperAfter_cons_word cs st hword] at h
          simp only [List.cons.injEq] at h
          rw [upperAfter_cons_word (spacedF false cs) st hword, h.1,
            ih 0 false hcw2 hpf2 h.2]
        · rw [upperAfter_cons_other cs st hterm (by simpa using hws)
            (by simpa using hword)] at h
          simp only [List.cons.injEq, true_and] at h
          rw [upperAfter_cons_other (spacedF false cs) st hterm (by simpa using hws)
            (by simpa using hword), ih 0 false hcw2 hpf2 h]

lemma jsCapFirst_id {l : List Char}
    (h : ∀ d, l.head? = some d → jsToUpper d = d) : jsCapFirst l = l := by
  cases l with
  | nil => rfl
  | cons c cs => rw [jsCapFirst, h c rfl]

lemma tailSp_cases : ∀ l : List Char, tailSp l = [] ∨ tailSp l = [' '] := by
  intro l
  induction l with
  | nil => exact Or.inl rfl
  | cons c cs ih =>
    cases cs with
    | nil =>
      by_cases hp : isPunct c = true
      · exact Or.inr (by rw [show tailSp [c] = if isPunct c = true then [' ']
          else [] from rfl, if_pos hp])
      · exact Or.inl (by rw [show tailSp [c] = if isPunct c = true then [' ']
          else [] from rfl, if_neg hp])
    | cons d ds => exact ih

/-! ### Idempotence of `finalPolish` (C4): invariants of a polished text -/

lemma head_cons_decomp {l : List Char} {c : Char} (h : l.head? = some c) :
    ∃ r, l = c :: r := by
  cases l with
  | nil => simp at h
  | cons x xs =>
    simp only [List.head?_cons, Option.some.injEq] at h
    exact ⟨xs, by rw [h]⟩

lemma collapseWs_cons_nonws {c : Char} (ts : List Char) (h : isJsWs c = false) :
    collapseWs (c :: ts) = c :: collapseWs ts := by
  rw [collapseWs, if_neg (by simp [h])]

lemma jsTrim_head_value {c : Char} (cs : List Char) (h : isJsWs c = false) :
    ∃ r, jsTrim (c :: cs) = c :: r := by
  have hdw : (c :: cs).dropWhile isJsWs = c :: cs := by
    rw [List.dropWhile_cons, if_neg (by simp [h])]
  have hj : jsTrim (c :: cs) = ((c :: cs).reverse.dropWhile isJsWs).reverse := by
    rw [jsTrim, hdw]
  have hdec := back_strip_decomp (c :: cs)
  cases hy : ((c :: cs).reverse.dropWhile isJsWs).reverse with
  | nil =>
    rw [hy] at hdec
    simp only [List.nil_append] at hdec
    have hcmem : c ∈ (c :: cs).reverse.takeWhile isJsWs := by
      have hrev : c ∈ ((c :: cs).reverse.takeWhile isJsWs).reverse := by
        rw [← hdec]
        exact List.mem_cons_self c cs
      simpa using hrev
    have hws := List.mem_takeWhile_imp hcmem
    rw [h] at hws
    exact absurd hws (by simp)
  | cons d r =>
    rw [hy] at hdec
    have hd : c = d := by
      have hh := congrArg List.head? hdec
      simpa using hh
    exact ⟨r, by rw [hj, hy, ← hd]⟩

lemma wsPunctOK_jsTrim {l : List Char} {b : Bool} (h : wsPunctOK b l) :
    wsPunctOK false (jsTrim l) := by
  have hX := wsPunctOK_dropWhile h
  obtain ⟨r, hr⟩ := jsTrim_prefix_dropWhile l
  rw [← hr] at hX
  exact wsPunctOK_prefix _ r hX

lemma upperAfter_jsTrim {l : List Char} (h : upperAfter l 0 = l) :
    upperAfter (jsTrim l) 0 = jsTrim l := by
  have hsplit : l.takeWhile isJsWs ++ l.dropWhile isJsWs = l := by simp
  have hwmem : ∀ c ∈ l.takeWhile isJsWs, isJsWs c = true := fun c hc =>
    List.mem_takeWhile_imp hc
  have hx : upperAfter (l.dropWhile isJsWs) 0 = l.dropWhile isJsWs := by
    have h2 : upperAfter (l.takeWhile isJsWs ++ l.dropWhile isJsWs) 0 =
        l.takeWhile isJsWs ++ l.dropWhile isJsWs := by rw [hsplit, h]
    rw [ upperAfter_ws_prefix _ hwmem _] at h2
    exact List.append_cancel_left h2
  have hdec := back_strip_decomp (l.dropWhile isJsWs)
  rw [hdec] at hx
  have hj : jsTrim l = ((l.dropWhile isJsWs).reverse.dropWhile isJsWs).reverse := rfl
  rw [hj]
  exact upperAfter_prefix_stable _ _ 0 hx

lemma punctFollow_finalPolishL (t : List Char) :
    List.Chain' punctFollow (finalPolishL t) := by
  rw [finalPolishL_eq_simple]
  have c0 := chainWs_collapseWs t
  have c1 := chainWs_stripWsBefore isPunct c0
  have c2 := chainWs_punctSpace false c1
  have c6 := chainWs_upperAfter 0 c2
  have c7 := chainWs_jsCapFirst c6
  have c9 := chainWs_stripWsBefore (fun c => c == ',') c7
  have hC : List.Chain' punctFollow
      (punctSpace (stripWsBefore isPunct (collapseWs t)) false) :=
    (punctSpace_punct_space _ false).imp (fun a b hab hp => Or.inl (hab hp))
  have hD := chain'_punctFollow_forall2 (forall2_upperAfter _ 0) hC
  have hE := chain'_punctFollow_forall2 (forall2_jsCapFirst _) hD
  have hF := stripWsBefore_chain_pres (fun c => c == ',')
    (fun a b _ hb _ => Or.inr (Or.inr (by simpa using hb))) c7 hE
  have hG := stripWsBefore_chain_pres (fun c => c == '.')
    (fun a b _ hb _ => Or.inr (Or.inl (by simpa using hb))) c9 hF
  exact List.Chain'.infix hG (jsTrim_within _)

lemma wsNotBefore_dot_finalPolishL (t : List Char) :
    List.Chain' (wsNotBefore (fun c => c == '.')) (finalPolishL t) := by
  rw [finalPolishL_eq_simple]
  have c0 := chainWs_collapseWs t
  have c1 := chainWs_stripWsBefore isPunct c0
  have c2 := chainWs_punctSpace false c1
  have c6 := chainWs_upperAfter 0 c2
  have c7 := chainWs_jsCapFirst c6
  have c9 := chainWs_stripWsBefore (fun c => c == ',') c7
  exact List.Chain'.infix (stripWsBefore_wsNotBefore _ c9) (jsTrim_within _)

lemma wsNotBefore_comma_finalPolishL (t : List Char) :
    List.Chain' (wsNotBefore (fun c => c == ',')) (finalPolishL t) := by
  rw [finalPolishL_eq_simple]
  have c0 := chainWs_collapseWs t
  have c1 := chainWs_stripWsBefore isPunct c0
  have c2 := chainWs_punctSpace false c1
  have c6 := chainWs_upperAfter 0 c2
  have c7 := chainWs_jsCapFirst c6
  have c9 := chainWs_stripWsBefore (fun c => c == ',') c7
  have hF := stripWsBefore_wsNotBefore (fun c => c == ',') c7
  have hG := stripWsBefore_chain_pres (fun c => c == '.')
    (fun a b ha _ hws => absurd hws (by simp [ha])) c9 hF
  exact List.Chain'.infix hG (jsTrim_within _)

lemma wsPunctOK_finalPolishL (t : List Char) :
    wsPunctOK false (finalPolishL t) := by
  rw [finalPolishL_eq_simple]
  have c0 := chainWs_collapseWs t
  have c1 := chainWs_stripWsBefore isPunct c0
  have c2 := chainWs_punctSpace false c1
  have c6 := chainWs_upperAfter 0 c2
  have c7 := chainWs_jsCapFirst c6
  have c9 := chainWs_stripWsBefore (fun c => c == ',') c7
  have hB := stripWsBefore_wsNotBefore isPunct c0
  have hC := wsPunctOK_punctSpace _ false false c1 hB
  have hD := wsPunctOK_forall2 (forall2_upperAfter _ 0) false hC
  have hE := wsPunctOK_forall2 (forall2_jsCapFirst _) false hD
  have hF := wsPunctOK_strip (fun c => c == ',') c7 hE
  have hG := wsPunctOK_strip (fun c => c == '.') c9 hF
  exact wsPunctOK_jsTrim hG

lemma upperAfter_finalPolishL (t : List Char) :
    upperAfter (finalPolishL t) 0 = finalPolishL t := by
  rw [finalPolishL_eq_simple]
  have c0 := chainWs_collapseWs t
  have c1 := chainWs_stripWsBefore isPunct c0
  have c2 := chainWs_punctSpace false c1
  have c6 := chainWs_upperAfter 0 c2
  have c7 := chainWs_jsCapFirst c6
  have c9 := chainWs_stripWsBefore (fun c => c == ',') c7
  have hD := upperAfter_idem
    (punctSpace (stripWsBefore isPunct (collapseWs t)) false) 0
  have hE := upperAfter_jsCapFirst hD
  have hF := upperAfter_strip (fun c => c == ',')
    (fun c hc => by
      have hcc : c = ',' := by simpa using hc
      subst hcc
      exact ⟨by decide, by decide⟩) 0 c7 hE
  have hG := upperAfter_strip (fun c => c == '.')
    (fun c hc => by
      have hcc : c = '.' := by simpa using hc
      subst hcc
      exact ⟨by decide, by decide⟩) 0 c9 hF
  exact upperAfter_jsTrim hG

lemma head_toUpper_finalPolishL (t : List Char)
    (hh : ∀ d, t.head? = some d → isJsWs d = false) :
    ∀ d, (finalPolishL t).head? = some d → jsToUpper d = d := by
  intro d hd
  cases t with
  | nil =>
    have h0 : finalPolishL ([] : List Char) = [] := rfl
    rw [h0] at hd
    simp at hd
  | cons c ts =>
    rw [finalPolishL_eq_simple] at hd
    have hc : isJsWs c = false := hh c rfl
    have hA : (collapseWs (c :: ts)).head? = some c := by
      rw [collapseWs_cons_nonws ts hc]
      rfl
    have hB : (stripWsBefore isPunct (collapseWs (c :: ts))).head? = some c := by
      rw [stripWsBefore_head_eq isPunct (fun x hx => by
        rw [hA] at hx
        simp only [Option.some.injEq] at hx
        subst hx
        exact hc)]
      exact hA
    obtain ⟨bs, hBs⟩ := head_cons_decomp hB
    have hC : (punctSpace (stripWsBefore isPunct (collapseWs (c :: ts)))
        false).head? = some c := by
      rw [hBs]
      exact punctSpace_head_false c bs
    obtain ⟨cs1, hCs⟩ := head_cons_decomp hC
    obtain ⟨e, he, hews⟩ := upperAfter_head c cs1 0
    rw [hc] at hews
    have hD : (upperAfter (punctSpace (stripWsBefore isPunct
        (collapseWs (c :: ts))) false) 0).head? = some e := by
      rw [hCs]
      exact he
    obtain ⟨ds, hDs⟩ := head_cons_decomp hD
    have hu_ws : isJsWs (jsToUpper e) = false := by
      rw [jsToUpper_ws]
      exact hews
    have hEh : (jsCapFirst (upperAfter (punctSpace (stripWsBefore isPunct
        (collapseWs (c :: ts))) false) 0)).head? = some (jsToUpper e) := by
      rw [hDs]
      rfl
    have hF : (stripWsBefore (fun x => x == ',') (jsCapFirst (upperAfter
        (punctSpace (stripWsBefore isPunct (collapseWs (c :: ts))) false)
        0))).head? = some (jsToUpper e) := by
      rw [stripWsBefore_head_eq _ (fun x hx => by
        rw [hEh] at hx
        simp only [Option.some.injEq] at hx
        subst hx
        exact hu_ws)]
      exact hEh
    have hG : (stripWsBefore (fun x => x == '.') (stripWsBefore (fun x => x == ',')
        (jsCapFirst (upperAfter (punctSpace (stripWsBefore isPunct
        (collapseWs (c :: ts))) false) 0)))).head? = some (jsToUpper e) := by
      rw [stripWsBefore_head_eq _ (fun x hx => by
        rw [hF] at hx
        simp only [Option.some.injEq] at hx
        subst hx
        exact hu_ws)]
      exact hF
    obtain ⟨gs, hGs⟩ := head_cons_decomp hG
    obtain ⟨r, hr⟩ := jsTrim_head_value gs hu_ws
    rw [hGs, hr] at hd
    simp only [List.head?_cons, Option.some.injEq] at hd
    rw [← hd]
    exact toUpper_idem e

/-! ### Idempotence of `finalPolish` (C4): the fixed-point theorem -/

lemma finalPolishL_fix (t : List Char)
    (hh : ∀ d, t.head? = some d → isJsWs d = false) :
    finalPolishL (finalPolishL t) = finalPolishL t := by
  obtain ⟨P, hP⟩ : ∃ P, finalPolishL t = P := ⟨_, rfl⟩
  have hclean := cleanOutput_finalPolishL t
  have hpf := punctFollow_finalPolishL t
  have hdot := wsNotBefore_dot_finalPolishL t
  have hcom := wsNotBefore_comma_finalPolishL t
  have hwp := wsPunctOK_finalPolishL t
  have hstab := upperAfter_finalPolishL t
  have hcap := head_toUpper_finalPolishL t hh
  rw [hP] at hclean hpf hdot hcom hwp hstab hcap ⊢
  obtain ⟨hm, hcw, hhead, hlast⟩ := hclean
  rw [finalPolishL_eq_simple P, collapseWs_id hm hcw,
    punctSpace_strip_eq_spacedF P false hcw hwp,
    upperAfter_spacedF P 0 false hcw hpf hstab,
    jsCapFirst_id (fun d hd => by
      rw [spacedF_head_nonws false hhead] at hd
      exact hcap d hd),
    strips_spacedF P.length P false le_rfl hm hcw hpf hdot hcom hwp,
    dropB_false]
  rcases tailSp_cases P with hts | hts
  · rw [hts, List.append_nil, jsTrim_id hhead hlast]
  · rw [hts, jsTrim_append_ws (by decide) P, jsTrim_id hhead hlast]

/-- **C4 (counterexample).** `finalPolish` is not idempotent on every string:
on `" a"` one application yields `"a"` (capitalisation happens before the
trim, on the leading space), while a second application yields `"A"`. -/
theorem finalPolish_not_idempotent :
    finalPolish (finalPolish " a") ≠ finalPolish " a" := by
  decide

/-- **C4 (amended).** `finalPolish` is idempotent on every string whose first
character is not JavaScript whitespace: for such `s`,
`finalPolish (finalPolish s) = finalPolish s`. (The hypothesis is needed
because `finalPolish` capitalises the first character before trimming, so a
leading space shields the first letter from capitalisation on the first
pass only.) -/
theorem finalPolish_idem (s : String)
    (h : ∀ d, s.data.head? = some d → isJsWs d = false) :
    finalPolish (finalPolish s) = finalPolish s := by
  show String.mk (finalPolishL (finalPolishL s.data)) =
    String.mk (finalPolishL s.data)
  rw [finalPolishL_fix s.data h]

theorem finalPolish_idem_witness :
    (∀ d, ("x" : String).data.head? = some d → isJsWs d = false) ∧
    finalPolish (finalPolish "x") = finalPolish "x" := by
  have harg : ∀ d, ("x" : String).data.head? = some d → isJsWs d = false := by
    intro d hd
    have h1 : some 'x' = some d := hd
    have h2 : 'x' = d := by simpa using h1
    rw [← h2]
    decide
  exact ⟨harg, finalPolish_idem "x" harg⟩

end Humanizer
